import Mathlib

/-!
Verification of the video_workflow_rs core against its specification.

This file gives a shallow embedding, in Lean 4, of the parts of the
repository that the checked claims are about:

* the `{{var}}` template renderer (`vwf-render/src/lib.rs`, `render_template`);
* the DAG data model (`vwf-dag/src/task.rs`, `artifact.rs`, `state/workflow.rs`);
* the scheduler helpers (`vwf-dag/src/scheduler/helpers.rs`:
  `update_all_task_statuses`, `collect_invalidation_targets`) and the second
  invalidation variant (`vwf-dag/src/scheduler/invalidation.rs`:
  `collect_targets`);
* the scheduler constraint accounting (`vwf-dag/src/scheduler/mod.rs`:
  `Scheduler`, `get_runnable_tasks`, `start_task`, `finish_task`);
* the DAG execution engine (`vwf-core/src/engine.rs`: `find_runnable`,
  `execute_dag`, `find_all_dependents`, `run_step`) and the CLI run driver
  (`vwf-cli/src/run.rs`: `run_real`, `write_manifest`);
* the state store (`vwf-dag/src/store.rs`: `StateStore::save`), modeled as the
  sequence of filesystem operations it performs.

Rust `Vec`-based worklists are modeled as Lean lists with an explicit fuel
parameter; the fuel is chosen large enough and, where a claim depends on it,
a sufficiency lemma is proved.  `HashSet`/`BTreeSet` values are modeled as
lists used up to membership; all theorems about them are stated in terms of
membership, which is the observable interface the Rust code uses.
-/

/-! ## Template rendering (`vwf-render/src/lib.rs`)

`render_template` replaces every regex match of `\{\{\s*([a-zA-Z0-9_\-\.]+)\s*\}\}`
by the value of the captured variable, erroring on a missing variable.  The
regex is embedded as an explicit character-level scanner: because the character
classes `\s` and `[a-zA-Z0-9_\-\.]` are disjoint and contain no brace, the
greedy match attempt at each position is deterministic, and the leftmost-match
iteration of `captures_iter` is exactly a left-to-right scan. -/

namespace VWF

def lbrace : Char := Char.ofNat 123

def rbrace : Char := Char.ofNat 125

/-- The Rust regex character class `[a-zA-Z0-9_\-\.]` (ASCII only). -/
def isNameChar (c : Char) : Bool :=
  (('a' ≤ c) && (c ≤ 'z')) || (('A' ≤ c) && (c ≤ 'Z')) ||
  (('0' ≤ c) && (c ≤ '9')) || c = '_' || c = '-' || c = '.'

/-- The Rust regex class `\s` (Unicode whitespace, the default in the `regex`
crate): `[\t\n\x0B\f\r \x85\xA0\x{1680}\x{2000}-\x{200A}\x{2028}\x{2029}\x{202F}\x{205F}\x{3000}]`. -/
def rustIsSpace (c : Char) : Bool :=
  c = Char.ofNat 9 || c = Char.ofNat 10 || c = Char.ofNat 11 ||
  c = Char.ofNat 12 || c = Char.ofNat 13 || c = Char.ofNat 32 ||
  c = Char.ofNat 133 || c = Char.ofNat 160 || c = Char.ofNat 5760 ||
  (Char.ofNat 8192 ≤ c && c ≤ Char.ofNat 8202) ||
  c = Char.ofNat 8232 || c = Char.ofNat 8233 || c = Char.ofNat 8239 ||
  c = Char.ofNat 8287 || c = Char.ofNat 12288

/-- Attempt the regex match at the head of `s`.  On success, returns the
captured variable name and the remainder of the string after the match. -/
def matchToken (s : List Char) : Option (List Char × List Char) :=
  match s with
  | c1 :: c2 :: rest =>
    if c1 = lbrace && c2 = lbrace then
      let afterWs := rest.dropWhile rustIsSpace
      let key := afterWs.takeWhile isNameChar
      if key.isEmpty then none
      else
        match (afterWs.dropWhile isNameChar).dropWhile rustIsSpace with
        | d1 :: d2 :: rest2 =>
          if d1 = rbrace && d2 = rbrace then some (key, rest2) else none
        | _ => none
    else none
  | _ => none

/-- Leftmost match: the gap before the match, the captured name, and the
remainder after the match. -/
def findToken : List Char → Option (List Char × List Char × List Char)
  | [] => none
  | c :: cs =>
    match matchToken (c :: cs) with
    | some (key, rest) => some ([], key, rest)
    | none =>
      match findToken cs with
      | some (gap, key, rest) => some (c :: gap, key, rest)
      | none => none

/-- The error message produced by `render_template` for a missing variable. -/
def missingVarMsg (key : String) : String :=
  "Missing template var: `" ++ key ++ "`"

/-- The iteration of `captures_iter` in `render_template`, with fuel.  Every
recursive call strictly shrinks the remaining input (a match consumes at least
four characters), so fuel `s.length` always suffices; the fuel-exhausted
branch is unreachable for the wrapper below. -/
def renderList (vars : List (String × String)) : Nat → List Char → Except String (List Char)
  | _, [] => Except.ok []
  | 0, s => Except.ok s
  | fuel + 1, c :: cs =>
    match findToken (c :: cs) with
    | none => Except.ok (c :: cs)
    | some (gap, key, rest) =>
      match vars.lookup (String.mk key) with
      | some v =>
        match renderList vars fuel rest with
        | Except.ok out => Except.ok (gap ++ v.data ++ out)
        | Except.error e => Except.error e
      | none => Except.error (missingVarMsg (String.mk key))

/-- Rust `render_template` from `vwf-render/src/lib.rs` (the copy in
`vwf-core/src/render.rs` is textually identical).  The `BTreeMap` of variables
is modeled as an association list with the map's key uniqueness left to the
caller; `lookup` returns the first binding. -/
def render_template (input : String) (vars : List (String × String)) : Except String String :=
  match renderList vars input.data.length input.data with
  | Except.ok out => Except.ok (String.mk out)
  | Except.error e => Except.error e

/-- The variable names of the `{{name}}` tokens of `s`, in scan order. -/
def scanKeys : Nat → List Char → List String
  | _, [] => []
  | 0, _ => []
  | fuel + 1, c :: cs =>
    match findToken (c :: cs) with
    | none => []
    | some (_, key, rest) => String.mk key :: scanKeys fuel rest

/-- First scanned variable name that is absent from the map. -/
def firstMissingKey (vars : List (String × String)) (keys : List String) : Option String :=
  keys.find? (fun k => (vars.lookup k).isNone)

/-! ## DAG data model (`vwf-dag/src/task.rs`, `artifact.rs`, `state/workflow.rs`)

`BTreeMap` collections are modeled as lists of entries in ascending key
order; all theorems touch them only through membership and pointwise maps.
Wall-clock fields (`started_at`, `updated_at`, `created_at`), the opaque JSON
payloads (`Task::config`, state `inputs`) and checkpoint records are not
modeled: no claim reads them and the embedded functions never touch them.
The `f64` duration of `PlaceholderKind::SilentAudio` is likewise dropped
(floating point; never read by the core). -/

inductive TaskStatus where
  | blocked (waitingOn : List String)
  | ready
  | running
  | complete
  | failed (error : String)
  | skipped (reason : String)
deriving DecidableEq

inductive PlaceholderKind where
  | solidColor (color : String)
  | silentAudio
  | staticImage (imagePath : String)
  | skip
deriving DecidableEq

inductive InputSpec where
  | required (artifact : String)
  | optionalSpec (artifact : String) (defaultVal : Option String)
  | placeholder (artifact : String) (kind : PlaceholderKind)
deriving DecidableEq

structure OutputSpec where
  artifact : String
  primary : Bool
deriving DecidableEq

structure Constraint where
  sequentialGroup : Option String
  resource : Option String
  maxParallelism : Option Nat
deriving DecidableEq

structure Task where
  id : String
  name : String
  kind : String
  inputs : List InputSpec
  outputs : List OutputSpec
  constraints : Constraint
  status : TaskStatus
deriving DecidableEq

/-- Rust `Task::is_ready`. -/
def Task.is_ready (t : Task) : Bool := t.status = TaskStatus.ready

/-- Rust `Task::is_complete`. -/
def Task.is_complete (t : Task) : Bool := t.status = TaskStatus.complete

inductive ArtifactStatus where
  | missing
  | placeholder
  | ready
  | invalidated
deriving DecidableEq

structure Artifact where
  id : String
  path : String
  checksum : Option String
  producedBy : Option String
  status : ArtifactStatus
  isPlaceholder : Bool
deriving DecidableEq

/-- Rust `Artifact::invalidate`. -/
def Artifact.invalidate (a : Artifact) : Artifact :=
  { a with status := ArtifactStatus.invalidated }

structure WorkflowState where
  workflowName : String
  version : Nat
  tasks : List Task
  artifacts : List Artifact
  complete : Bool
  error : Option String
deriving DecidableEq

/-! ## Scheduler helpers (`vwf-dag/src/scheduler/helpers.rs`) -/

/-- Rust `task_consumes` (identical in `helpers.rs` and `invalidation.rs`). -/
def task_consumes (t : Task) (artifactId : String) : Bool :=
  t.inputs.any fun i =>
    match i with
    | InputSpec.required a => a = artifactId
    | InputSpec.optionalSpec a _ => a = artifactId
    | InputSpec.placeholder a _ => a = artifactId

/-- The `available` set of `update_all_task_statuses`: ids of artifacts whose
status is `Ready` or `Placeholder`. -/
def availableIds (state : WorkflowState) : List String :=
  (state.artifacts.filter fun a =>
    a.status = ArtifactStatus.ready || a.status = ArtifactStatus.placeholder).map Artifact.id

/-- The `(artifact, producing task)` pairs from which the `producers` map is
collected, in `BTreeMap` iteration order. -/
def producerPairs (tasks : List Task) : List (String × String) :=
  tasks.flatMap fun t => t.outputs.map fun o => (o.artifact, t.id)

/-- Rust `producers.get(artifact)`: collecting an iterator into a `HashMap` keeps
the last binding for a duplicated key, hence the left fold. -/
def producersGet (tasks : List Task) (a : String) : Option String :=
  (producerPairs tasks).foldl (fun acc p => if p.1 = a then some p.2 else acc) none

/-- The guard of the `continue` in `update_all_task_statuses`: tasks already
running or in a terminal state are not touched. -/
def statusFrozen (t : Task) : Bool :=
  t.is_complete ||
    (match t.status with
     | TaskStatus.running => true
     | TaskStatus.skipped _ => true
     | TaskStatus.failed _ => true
     | _ => false)

/-- The `waiting` list computed for one task: for each `Required` input whose
artifact is not available, the producing task id, or `artifact:<id>` if no
task produces it. -/
def waitingList (state : WorkflowState) (t : Task) : List String :=
  t.inputs.filterMap fun i =>
    match i with
    | InputSpec.required a =>
      if a ∈ availableIds state then none
      else some ((producersGet state.tasks a).getD ("artifact:" ++ a))
    | _ => none

/-- The per-task body of the `for` loop of `update_all_task_statuses`.  The
`available` and `producers` maps are built from the pre-update state and do
not depend on task statuses, so the in-place mutation is a pure map. -/
def update_task (state : WorkflowState) (t : Task) : Task :=
  if statusFrozen t then t
  else
    let waiting := waitingList state t
    { t with status :=
        if waiting.isEmpty then TaskStatus.ready else TaskStatus.blocked waiting }

/-- Rust `update_all_task_statuses` from `helpers.rs` (the
`Scheduler::update_task_statuses` entry point simply delegates to it; the
`scheduler/status.rs` variant of the second source tree computes the same
statuses). -/
def update_all_task_statuses (state : WorkflowState) : WorkflowState :=
  { state with tasks := state.tasks.map (update_task state) }

/-! ## Invalidation worklists

Both invalidation variants run the same `while let Some(a) = to_process.pop()`
worklist over artifact ids; they differ only in which consuming tasks
contribute their outputs.  The `Vec` stack is modeled as a list with `pop`
taking the head and pushes prepended, which permutes the processing order but
not the collected set (the Rust result is a `HashSet`); all theorems use the
result only through membership.  The loop carries explicit fuel; a
sufficiency lemma below shows the fuel chosen by the wrappers always
suffices, so the `getD []` default is never taken. -/

def wfLoop (expand : String → List String → List String) :
    Nat → List String → List String → Option (List String)
  | 0, _, _ => none
  | _ + 1, [], inval => some inval
  | fuel + 1, a :: rest, inval =>
    if a ∈ inval then wfLoop expand fuel rest inval
    else wfLoop expand fuel (expand a (a :: inval) ++ rest) (a :: inval)

/-- All artifact ids appearing as an output of any task. -/
def allOutputIds (tasks : List Task) : List String :=
  tasks.flatMap fun t => t.outputs.map OutputSpec.artifact

/-- Outputs of the **Complete** tasks consuming `a`
(`collect_invalidation_targets`, `helpers.rs` lines 65-72): the pushed
outputs are those not already collected. -/
def completeConsumerOutputs (tasks : List Task) (a : String) : List String :=
  (tasks.filter fun t => t.is_complete && task_consumes t a).flatMap
    fun t => t.outputs.map OutputSpec.artifact

def expandComplete (tasks : List Task) (a : String) (inval : List String) : List String :=
  (completeConsumerOutputs tasks a).filter fun o => decide (o ∉ inval)

/-- Outputs of **all** tasks consuming `a` (`find_downstream`,
`invalidation.rs` lines 46-53: outputs are collected for every consuming
task, regardless of its status). -/
def anyConsumerOutputs (tasks : List Task) (a : String) : List String :=
  (tasks.filter fun t => task_consumes t a).flatMap
    fun t => t.outputs.map OutputSpec.artifact

def expandAny (tasks : List Task) (a : String) (inval : List String) : List String :=
  (anyConsumerOutputs tasks a).filter fun o => decide (o ∉ inval)

/-- Fuel that always suffices for the worklist (proved below). -/
def collectFuel (tasks : List Task) (changed : String) : Nat :=
  (changed :: allOutputIds tasks).length * (1 + (allOutputIds tasks).length) + 2

/-- Rust `collect_invalidation_targets` from
`vwf-foundation/.../scheduler/helpers.rs` lines 60-77: the worklist follows
only tasks with `task.is_complete()`. -/
def collect_invalidation_targets (state : WorkflowState) (changed : String) : List String :=
  (wfLoop (expandComplete state.tasks) (collectFuel state.tasks changed) [changed] []).getD []

/-- The artifact component of `collect_targets` from
`vwf-dag/src/scheduler/invalidation.rs` lines 8-26: the worklist follows
every consuming task; its second component (`tasks_to_reset`, the consuming
tasks that are Complete) is not needed by any claim and is not modeled. -/
def collect_targets_artifacts (state : WorkflowState) (changed : String) : List String :=
  (wfLoop (expandAny state.tasks) (collectFuel state.tasks changed) [changed] []).getD []

/-- The reverse-reachability closure of `changed` over the consumes relation,
as the spec describes it: `changed` itself plus, transitively, every output
artifact of every task that consumes an artifact already in the set —
independent of task statuses. -/
inductive ConsumesReach (tasks : List Task) (changed : String) : String → Prop where
  | base : ConsumesReach tasks changed changed
  | step (a : String) (t : Task) (o : String) :
      ConsumesReach tasks changed a → t ∈ tasks → task_consumes t a = true →
      o ∈ t.outputs.map OutputSpec.artifact → ConsumesReach tasks changed o

/-- The same closure restricted to edges through `Complete` consuming tasks. -/
inductive ConsumesReachComplete (tasks : List Task) (changed : String) : String → Prop where
  | base : ConsumesReachComplete tasks changed changed
  | step (a : String) (t : Task) (o : String) :
      ConsumesReachComplete tasks changed a → t ∈ tasks →
      t.is_complete = true → task_consumes t a = true →
      o ∈ t.outputs.map OutputSpec.artifact → ConsumesReachComplete tasks changed o

/-! ## Scheduler constraint accounting (`vwf-dag/src/scheduler/mod.rs`)

`BTreeSet<String>` fields are modeled as lists with dedup-insert and erase. -/

def setInsert (l : List String) (x : String) : List String :=
  if x ∈ l then l else x :: l

structure Scheduler where
  running : List String
  occupiedGroups : List String
  occupiedResources : List String
deriving DecidableEq

def Scheduler.init : Scheduler := ⟨[], [], []⟩

/-- Rust `Scheduler::is_blocked`. -/
def Scheduler.isBlocked (s : Scheduler) (t : Task) : Bool :=
  (match t.constraints.sequentialGroup with
   | some g => g ∈ s.occupiedGroups
   | none => false) ||
  (match t.constraints.resource with
   | some r => r ∈ s.occupiedResources
   | none => false)

/-- Rust `Scheduler::get_runnable_tasks`. -/
def get_runnable_tasks (s : Scheduler) (state : WorkflowState) : List Task :=
  state.tasks.filter fun t => t.is_ready && !(s.isBlocked t)

/-- Rust `Scheduler::start_task`. -/
def start_task (s : Scheduler) (t : Task) : Scheduler :=
  { running := setInsert s.running t.id,
    occupiedGroups :=
      match t.constraints.sequentialGroup with
      | some g => setInsert s.occupiedGroups g
      | none => s.occupiedGroups,
    occupiedResources :=
      match t.constraints.resource with
      | some r => setInsert s.occupiedResources r
      | none => s.occupiedResources }

/-- Rust `Scheduler::finish_task`. -/
def finish_task (s : Scheduler) (t : Task) : Scheduler :=
  { running := s.running.erase t.id,
    occupiedGroups :=
      match t.constraints.sequentialGroup with
      | some g => s.occupiedGroups.erase g
      | none => s.occupiedGroups,
    occupiedResources :=
      match t.constraints.resource with
      | some r => s.occupiedResources.erase r
      | none => s.occupiedResources }

/-- Scheduler configurations reachable by a properly paired operation
sequence in which every started task was returned by `get_runnable_tasks`
against some workflow state at the moment it was started.  The second
component tracks the tasks currently running (started and not yet
finished). -/
inductive SchedReach : Scheduler → List Task → Prop where
  | init : SchedReach Scheduler.init []
  | startStep (s : Scheduler) (rts : List Task) (t : Task) (st : WorkflowState) :
      SchedReach s rts → t ∈ get_runnable_tasks s st →
      t.id ∉ rts.map Task.id → SchedReach (start_task s t) (t :: rts)
  | finishStep (s : Scheduler) (rts : List Task) (t : Task) :
      SchedReach s rts → t ∈ rts → SchedReach (finish_task s t) (rts.erase t)


/-! ## DAG execution engine (`vwf-engine/crates/vwf-core/src/engine.rs`)

The engine drives a list of configured steps.  Of `StepConfig` only the
fields the engine reads are modeled: `id`, `kind` and `depends_on`
(`resume_output` and the step payload are consumed solely through
`should_skip` and `execute_step`, which are external collaborators here and
are modeled as oracles: `sk id` is the value of
`opts.resume && should_skip(rt, vars, step)`, and `ex id` the result of
`execute_step(rt, vars, step)`).  `StepStatus` follows the engine and the
`vwf-web` mirror of the report type, which carry a `Blocked` variant
(`report.rs` of `vwf-core` in this snapshot lists only `Ok`, `Skipped`,
`Failed`, but `engine.rs` constructs and matches `StepStatus::Blocked`, so
the engine's view is authoritative).  Report timestamps, durations and the
run id are wall-clock values and are not modeled. -/

structure StepC where
  id : String
  kind : String
  dependsOn : List String
deriving DecidableEq

inductive StepStatus where
  | ok
  | skipped
  | failed
  | blocked
deriving DecidableEq

structure StepReport where
  id : String
  kind : String
  status : StepStatus
  error : Option String
deriving DecidableEq

/-- Rust `skipped_report`. -/
def skipped_report (s : StepC) : StepReport :=
  ⟨s.id, s.kind, StepStatus.skipped, none⟩

/-- The report constructed by `run_step` from the executor's result: `Ok` on
success, `Failed` with the error message otherwise, attributed to the step's
id. -/
def run_step_report (s : StepC) (result : Except String Unit) : StepReport :=
  match result with
  | Except.ok _ => ⟨s.id, s.kind, StepStatus.ok, none⟩
  | Except.error e => ⟨s.id, s.kind, StepStatus.failed, some e⟩

/-- Rust `find_runnable`: steps not yet processed whose dependencies are all in
`completed`. -/
def find_runnable (steps : List StepC) (completed failed blocked : List String) :
    List String :=
  (steps.filter fun s =>
    decide (s.id ∉ completed) && decide (s.id ∉ failed) && decide (s.id ∉ blocked) &&
      s.dependsOn.all fun d => decide (d ∈ completed)).map StepC.id

/-- One pop of the `find_all_dependents` worklist: scan all steps, inserting
and pushing each step that depends on `current` and is not yet collected. -/
def dependentsScan (steps : List StepC) (current : String)
    (acc : List String × List String) : List String × List String :=
  steps.foldl
    (fun p st =>
      if current ∈ st.dependsOn ∧ st.id ∉ p.1 then (st.id :: p.1, st.id :: p.2) else p)
    acc

def dependentsLoop (steps : List StepC) : Nat → List String → List String → List String
  | 0, _, acc => acc
  | _ + 1, [], acc => acc
  | fuel + 1, current :: toCheck, acc =>
    let scanned := dependentsScan steps current (acc, [])
    dependentsLoop steps fuel (scanned.2 ++ toCheck) scanned.1

/-- Rust `find_all_dependents`: every step that transitively depends on `stepId`.
Each worklist pop consumes one fuel; at most one push per distinct step id
can ever happen, so `steps.length + 2` fuel suffices. -/
def find_all_dependents (steps : List StepC) (stepId : String) : List String :=
  dependentsLoop steps (steps.length + 2) [stepId] []

/-- A dispatch event: the step handed to `run_step` together with the
`completed` set and report map at the moment of dispatch. -/
structure EngineEvent where
  step : StepC
  completedAt : List String
  reportsAt : List (String × StepReport)

structure EngineState where
  completed : List String
  failed : List String
  blocked : List String
  reports : List (String × StepReport)
  events : List EngineEvent

def EngineState.start : EngineState := ⟨[], [], [], [], []⟩

/-- Rust `HashMap::insert`: at most one entry per key. -/
def hmInsert (m : List (String × StepReport)) (k : String) (v : StepReport) :
    List (String × StepReport) :=
  (k, v) :: m.filter fun p => decide (p.1 ≠ k)

/-- Rust `step_map[step_id]`: a `HashMap` collected from an iterator keeps the
last binding of a duplicated key. -/
def lookupStep (steps : List StepC) (sid : String) : Option StepC :=
  steps.foldl (fun acc s => if s.id = sid then some s else acc) none

/-- The body of `for step_id in runnable` in `execute_dag`.  The `none` case
of the lookup is unreachable: batch ids are drawn from `steps` (in Rust the
`step_map[...]` indexing would panic). -/
def process_step (steps : List StepC) (sk : String → Bool)
    (ex : String → Except String Unit) (st : EngineState) (sid : String) : EngineState :=
  match lookupStep steps sid with
  | none => st
  | some step =>
    if sk sid then
      { st with completed := setInsert st.completed sid,
                reports := hmInsert st.reports sid (skipped_report step) }
    else
      let ev : EngineEvent := ⟨step, st.completed, st.reports⟩
      match ex sid with
      | Except.ok _ =>
        { st with completed := setInsert st.completed sid,
                  reports := hmInsert st.reports sid (run_step_report step (Except.ok ())),
                  events := ev :: st.events }
      | Except.error e =>
        let deps := find_all_dependents steps sid
        let newBlocked := deps.filter fun d =>
          decide (d ∉ st.completed) && decide (d ∉ st.failed)
        { st with failed := setInsert st.failed sid,
                  blocked := newBlocked.foldl setInsert st.blocked,
                  reports := hmInsert st.reports sid (run_step_report step (Except.error e)),
                  events := ev :: st.events }

/-- The engine's run loop.  `lastCnt` models `last_runnable_count`
(`none` is the initial `usize::MAX`, which no runnable length can equal).
The Rust `loop` has no fuel; every iteration that recurses processes a
non-empty batch whose members leave the unprocessed set, so any fuel of at
least `steps.length + 1` reaches one of the `break` conditions first, and the
claims below hold for every fuel. -/
def exec_loop (steps : List StepC) (sk : String → Bool)
    (ex : String → Except String Unit) :
    Nat → Option Nat → EngineState → EngineState
  | 0, _, st => st
  | fuel + 1, lastCnt, st =>
    let runnable := find_runnable steps st.completed st.failed st.blocked
    if runnable.isEmpty then st
    else if lastCnt = some runnable.length then st
    else
      exec_loop steps sk ex fuel (some runnable.length)
        (runnable.foldl (process_step steps sk ex) st)

/-- The `Blocked` report generated after the loop for a step that never ran:
its error text lists the dependencies that failed or were blocked. -/
def blocked_report (s : StepC) (failed blocked : List String) : StepReport :=
  ⟨s.id, s.kind, StepStatus.blocked,
    some ("Blocked by: " ++
      String.intercalate ", "
        (s.dependsOn.filter fun d => decide (d ∈ failed) || decide (d ∈ blocked)))⟩

/-- The post-loop pass adding `Blocked` reports for steps without one. -/
def add_pending_reports (steps : List StepC) (st : EngineState) :
    List (String × StepReport) :=
  steps.foldl
    (fun reps s =>
      match reps.lookup s.id with
      | some _ => reps
      | none => hmInsert reps s.id (blocked_report s st.failed st.blocked))
    st.reports

/-- Rust `reports.remove(&s.id)` folded over the declared step order. -/
def collect_reports : List StepC → List (String × StepReport) → List StepReport
  | [], _ => []
  | s :: rest, reps =>
    match reps.lookup s.id with
    | some r => r :: collect_reports rest (reps.filter fun p => decide (p.1 ≠ s.id))
    | none => collect_reports rest reps

def countStatus (rs : List StepReport) (st : StepStatus) : Nat :=
  (rs.filter fun r => decide (r.status = st)).length

structure RunReport where
  workflowName : String
  steps : List StepReport
deriving DecidableEq

/-- Outcome type: `execute_dag` returns `Ok(report)`, or `Err` carrying the serialized
report in the error context when any step is `Failed` or `Blocked`. -/
inductive ExecOutcome where
  | ok (report : RunReport)
  | failedRun (msg : String) (report : RunReport)
deriving DecidableEq

/-- Rust `execute_dag`: the run loop, the pending-`Blocked` pass, report
collection in declared order, the failure tally, and the final
classification.  The dispatch-event trace is returned alongside for the
statements about dispatch. -/
def execute_dag (steps : List StepC) (sk : String → Bool)
    (ex : String → Except String Unit) (name : String) (fuel : Nat) :
    ExecOutcome × List EngineEvent :=
  let st := exec_loop steps sk ex fuel none EngineState.start
  let reps := add_pending_reports steps st
  let stepReports := collect_reports steps reps
  let failedCount := countStatus stepReports StepStatus.failed
  let blockedCount := countStatus stepReports StepStatus.blocked
  let report : RunReport := ⟨name, stepReports⟩
  if failedCount > 0 || blockedCount > 0 then
    (ExecOutcome.failedRun "Workflow completed with failures" report, st.events)
  else (ExecOutcome.ok report, st.events)

/-! ## CLI run driver (`vwf-apps/crates/vwf-cli/src/run.rs`)

`run_real` runs the workflow and then writes `run.json`; the `?` on
`Runner::run_with_options` propagates an `Err` resulting from a failed run
before `write_manifest` is reached, and `anyhow`'s `main` integration turns
the propagated error into a non-zero process exit. -/

structure RunResult where
  exitCode : Nat
  manifestWritten : Bool
  manifest : Option RunReport
deriving DecidableEq

def run_real (steps : List StepC) (sk : String → Bool)
    (ex : String → Except String Unit) (name : String) (fuel : Nat) : RunResult :=
  match (execute_dag steps sk ex name fuel).1 with
  | ExecOutcome.ok rep => ⟨0, true, some rep⟩
  | ExecOutcome.failedRun _ _ => ⟨1, false, none⟩

/-! ## State store (`vwf-foundation/crates/vwf-dag/src/store.rs`)

`StateStore::save` is modeled as the sequence of filesystem operations it
performs (serialization itself is kept abstract: `serialized` stands for
`serde_json::to_string_pretty(state)`).  The crash model says what the
target file may contain if execution stops at any point: `fs::write` first
truncates and then writes, so an interruption can leave any prefix of the
new content; a rename is atomic. -/

inductive FsOp where
  | createDirAll (path : String)
  | writeFile (path : String) (content : String)
  | renameFile (src : String) (dst : String)
deriving DecidableEq

def FsOp.isRename : FsOp → Bool
  | FsOp.renameFile _ _ => true
  | _ => false

/-- Rust `Path::parent` for the slash-joined paths the store builds: everything
before the last separator. -/
def parentDir (p : String) : String :=
  String.mk (((p.data.reverse.dropWhile fun c => decide (c ≠ '/')).drop 1).reverse)

/-- Rust `StateStore::new(workdir).path`. -/
def state_store_path (workdir : String) : String := workdir ++ "/state.json"

/-- The operations performed by `StateStore::save`: `create_dir_all` on the
parent directory, then a single direct `fs::write` of the serialized state
to the store path.  There is no temporary file and no rename. -/
def state_store_save_ops (path : String) (serialized : String) : List FsOp :=
  [FsOp.createDirAll (parentDir path), FsOp.writeFile path serialized]

/-- A filesystem is a map from paths to contents. -/
def fsGet (fs : List (String × String)) (k : String) : Option String := fs.lookup k

def fsSet (fs : List (String × String)) (k v : String) : List (String × String) :=
  (k, v) :: fs.filter fun p => decide (p.1 ≠ k)

def fsDel (fs : List (String × String)) (k : String) : List (String × String) :=
  fs.filter fun p => decide (p.1 ≠ k)

/-- Completed effect of one operation. -/
def applyFsOp (fs : List (String × String)) : FsOp → List (String × String)
  | FsOp.createDirAll _ => fs
  | FsOp.writeFile p c => fsSet fs p c
  | FsOp.renameFile src dst =>
    match fsGet fs src with
    | some c => fsSet (fsDel fs src) dst c
    | none => fsDel fs dst

/-- Mid-operation filesystems: a non-atomic `fs::write` may have truncated
the file and written any prefix of the content; directory creation and
rename leave no intermediate file state. -/
def midFsStates (fs : List (String × String)) : FsOp → List (List (String × String))
  | FsOp.createDirAll _ => []
  | FsOp.writeFile p c =>
    (List.range (c.data.length + 1)).map fun n => fsSet fs p (String.mk (c.data.take n))
  | FsOp.renameFile _ _ => []

/-- Every filesystem state reachable if execution stops before, inside, or
after any operation of the sequence. -/
def crashStates (fs : List (String × String)) : List FsOp → List (List (String × String))
  | [] => [fs]
  | op :: rest => fs :: midFsStates fs op ++ crashStates (applyFsOp fs op) rest


/-! ## Claim-side predicates

These definitions restate notions from the specification's wording, to be
compared with the embedded code above. -/

/-- No left or right brace occurs in the character list. -/
def braceFreeB (l : List Char) : Bool :=
  l.all fun c => decide (c ≠ lbrace) && decide (c ≠ rbrace)

/-- Claim C8's proviso: the string contains no occurrence of two consecutive
left braces (the substring that opens a template token). -/
def noDoubleBrace : List Char → Bool
  | c1 :: c2 :: rest => !(decide (c1 = lbrace) && decide (c2 = lbrace)) && noDoubleBrace (c2 :: rest)
  | _ => true

/-- Every gap strictly before a `{{name}}` token of `s` is brace-free. -/
def gapsBraceFree : Nat → List Char → Bool
  | _, [] => true
  | 0, _ => true
  | fuel + 1, c :: cs =>
    match findToken (c :: cs) with
    | none => true
    | some (gap, _, rest) => braceFreeB gap && gapsBraceFree fuel rest

/-- The artifacts named by the `Required` inputs of a task, in order. -/
def requiredIds (t : Task) : List String :=
  t.inputs.filterMap fun i =>
    match i with
    | InputSpec.required a => some a
    | _ => none

/-- The spec's availability condition for a required input: the workflow has
an artifact with this id whose status is `Ready` or `Placeholder`. -/
def RequiredAvailable (state : WorkflowState) (a : String) : Prop :=
  ∃ art ∈ state.artifacts, art.id = a ∧
    (art.status = ArtifactStatus.ready ∨ art.status = ArtifactStatus.placeholder)

instance (state : WorkflowState) (a : String) : Decidable (RequiredAvailable state a) := by
  unfold RequiredAvailable
  infer_instance

/-- The unsatisfied required inputs of a task, in declaration order. -/
def unsatRequired (state : WorkflowState) (t : Task) : List String :=
  (requiredIds t).filter fun a => decide (¬ RequiredAvailable state a)

/-- Some task of the workflow produces artifact `a`. -/
def HasProducer (tasks : List Task) (a : String) : Prop :=
  ∃ t ∈ tasks, ∃ o ∈ t.outputs, o.artifact = a

/-- No two distinct running tasks share a sequential group or a resource. -/
def MutexFree (rts : List Task) : Prop :=
  ∀ t1 ∈ rts, ∀ t2 ∈ rts, t1 ≠ t2 →
    (∀ g, t1.constraints.sequentialGroup = some g →
        t2.constraints.sequentialGroup ≠ some g) ∧
    (∀ r, t1.constraints.resource = some r → t2.constraints.resource ≠ some r)


/-! ## Concrete instances used by counterexamples and witnesses -/

/-- A `Complete` task consuming artifact `a` and producing artifact `b`. -/
def exTaskComplete : Task :=
  ⟨"t1", "t1", "test", [InputSpec.required "a"], [⟨"b", true⟩],
    ⟨none, none, none⟩, TaskStatus.complete⟩

/-- The same task while merely `Ready` (not yet run). -/
def exTaskReady : Task :=
  ⟨"t1", "t1", "test", [InputSpec.required "a"], [⟨"b", true⟩],
    ⟨none, none, none⟩, TaskStatus.ready⟩

def exStateComplete : WorkflowState := ⟨"wf", 1, [exTaskComplete], [], false, none⟩

def exStateReady : WorkflowState := ⟨"wf", 1, [exTaskReady], [], false, none⟩

/-- A `Ready` task with a sequential group and a resource, no inputs. -/
def exTaskTts : Task :=
  ⟨"tts_1", "tts_1", "tts", [], [], ⟨some "tts", some "gpu", none⟩, TaskStatus.ready⟩

def exStateTts : WorkflowState := ⟨"wf", 1, [exTaskTts], [], false, none⟩

/-- A two-step chain `a ← b` for the engine. -/
def exStepA : StepC := ⟨"a", "test", []⟩

def exStepB : StepC := ⟨"b", "test", ["a"]⟩

/-- The report carried by either outcome of `execute_dag` (on failure it is
the report serialized into the error's context). -/
def outcomeReport : ExecOutcome → RunReport
  | ExecOutcome.ok rep => rep
  | ExecOutcome.failedRun _ rep => rep

/-- Every id in `completed` has a current report with status `Ok` or
`Skipped`. -/
def ReportsOkSkip (completed : List String) (reports : List (String × StepReport)) : Prop :=
  ∀ c ∈ completed, ∃ rep, reports.lookup c = some rep ∧
    (rep.status = StepStatus.ok ∨ rep.status = StepStatus.skipped)

/-- The dispatch invariant of the engine loop: every recorded dispatch event
saw all of the step's dependencies in the completed set, that completed set
consisted of `Ok`/`Skipped` steps, and the current completed set does too. -/
def GoodEvents (st : EngineState) : Prop :=
  (∀ ev ∈ st.events, (∀ d ∈ ev.step.dependsOn, d ∈ ev.completedAt) ∧
    ReportsOkSkip ev.completedAt ev.reportsAt) ∧
  ReportsOkSkip st.completed st.reports

/-! ## Lemmas about the template renderer -/

theorem matchToken_rest_length {s : List Char} {k r : List Char}
    (h : matchToken s = some (k, r)) : r.length < s.length := by
  match s with
  | [] => simp [matchToken] at h
  | [c] => simp [matchToken] at h
  | c1 :: c2 :: rest =>
    simp only [matchToken] at h
    split at h
    · split at h
      · exact absurd h (by simp)
      · split at h
        · next d1 d2 rest2 heq =>
          split at h
          · have h1 : (((rest.dropWhile rustIsSpace).dropWhile isNameChar).dropWhile
                rustIsSpace).length ≤ rest.length := by
              calc (((rest.dropWhile rustIsSpace).dropWhile isNameChar).dropWhile
                  rustIsSpace).length
                  ≤ ((rest.dropWhile rustIsSpace).dropWhile isNameChar).length :=
                    (List.dropWhile_sublist _).length_le
                _ ≤ (rest.dropWhile rustIsSpace).length :=
                    (List.dropWhile_sublist _).length_le
                _ ≤ rest.length := (List.dropWhile_sublist _).length_le
            rw [heq] at h1
            obtain ⟨rfl, rfl⟩ := Prod.mk.injEq .. ▸ Option.some.injEq .. ▸ h
            simp only [List.length_cons] at h1
            simp only [List.length_cons]
            omega
          · exact absurd h (by simp)
        · exact absurd h (by simp)
    · exact absurd h (by simp)

theorem findToken_rest_length : ∀ (s g k r : List Char),
    findToken s = some (g, k, r) → r.length < s.length := by
  intro s
  induction s with
  | nil => intro g k r h; simp [findToken] at h
  | cons c cs ih =>
    intro g k r h
    rw [findToken] at h
    cases hm : matchToken (c :: cs) with
    | some kr =>
      obtain ⟨k0, r0⟩ := kr
      rw [hm] at h
      simp only [Option.some.injEq, Prod.mk.injEq] at h
      obtain ⟨hg, hk, hr⟩ := h
      subst hr
      exact matchToken_rest_length hm
    | none =>
      rw [hm] at h
      cases hf : findToken cs with
      | none => rw [hf] at h; simp at h
      | some gkr =>
        obtain ⟨g0, k0, r0⟩ := gkr
        rw [hf] at h
        simp only [Option.some.injEq, Prod.mk.injEq] at h
        obtain ⟨hg, hk, hr⟩ := h
        subst hr
        exact Nat.lt_succ_of_lt (ih g0 k0 r0 hf)

theorem renderList_of_findToken_none {vars : List (String × String)} {fuel : Nat}
    {s : List Char} (h : findToken s = none) :
    renderList vars fuel s = Except.ok s := by
  cases fuel with
  | zero => cases s <;> simp [renderList]
  | succ n => cases s with
    | nil => simp [renderList]
    | cons c cs => simp [renderList, h]

theorem renderList_error_of_firstMissing (vars : List (String × String)) :
    ∀ fuel s k, firstMissingKey vars (scanKeys fuel s) = some k →
      renderList vars fuel s = Except.error (missingVarMsg k) := by
  intro fuel
  induction fuel with
  | zero => intro s k h; cases s <;> simp [scanKeys, firstMissingKey] at h
  | succ n ih =>
    intro s k h
    cases s with
    | nil => simp [scanKeys, firstMissingKey] at h
    | cons c cs =>
      cases hf : findToken (c :: cs) with
      | none => rw [scanKeys, hf] at h; simp [firstMissingKey] at h
      | some gkr =>
        obtain ⟨gap, key, rest⟩ := gkr
        rw [scanKeys, hf] at h
        rw [firstMissingKey, List.find?_cons] at h
        cases hl : vars.lookup (String.mk key) with
        | none =>
          rw [hl] at h
          simp only [Option.isNone_none] at h
          simp only [Option.some.injEq] at h
          subst h
          simp [renderList, hf, hl]
        | some v =>
          rw [hl] at h
          simp only [Option.isNone_some] at h
          have := ih rest k h
          simp [renderList, hf, hl, this]

theorem renderList_ok_of_firstMissing_none (vars : List (String × String)) :
    ∀ fuel s, firstMissingKey vars (scanKeys fuel s) = none →
      ∃ out, renderList vars fuel s = Except.ok out := by
  intro fuel
  induction fuel with
  | zero => intro s _; cases s <;> exact ⟨_, rfl⟩
  | succ n ih =>
    intro s h
    cases s with
    | nil => exact ⟨_, rfl⟩
    | cons c cs =>
      cases hf : findToken (c :: cs) with
      | none => exact ⟨_, renderList_of_findToken_none hf⟩
      | some gkr =>
        obtain ⟨gap, key, rest⟩ := gkr
        rw [scanKeys, hf] at h
        rw [firstMissingKey, List.find?_cons] at h
        cases hl : vars.lookup (String.mk key) with
        | none => rw [hl] at h; simp at h
        | some v =>
          rw [hl] at h
          simp only [Option.isNone_some] at h
          obtain ⟨out, hout⟩ := ih rest h
          refine ⟨gap ++ v.data ++ out, ?_⟩
          simp [renderList, hf, hl, hout]


theorem matchToken_none_of_head_ne (c : Char) (t : List Char) (h : ¬ c = lbrace) :
    matchToken (c :: t) = none := by
  cases t with
  | nil => simp [matchToken]
  | cons d t2 => simp [matchToken, h]

theorem findToken_append_none (pre s : List Char) (hpre : braceFreeB pre = true)
    (hs : findToken s = none) : findToken (pre ++ s) = none := by
  induction pre with
  | nil => simpa using hs
  | cons p ps ih =>
    have hp : ¬ p = lbrace := by
      have := List.all_eq_true.mp hpre p (by simp)
      simp only [Bool.and_eq_true, decide_eq_true_eq] at this
      exact this.1
    have hps : braceFreeB ps = true := by
      apply List.all_eq_true.mpr
      intro x hx
      exact List.all_eq_true.mp hpre x (by simp [hx])
    rw [List.cons_append, findToken, matchToken_none_of_head_ne p _ hp, ih hps]

theorem lookup_some_mem (l : List (String × String)) (k : String) (v : String)
    (h : l.lookup k = some v) : ∃ k2, (k2, v) ∈ l := by
  induction l with
  | nil => simp [List.lookup] at h
  | cons a t ih =>
    obtain ⟨a1, a2⟩ := a
    rw [List.lookup_cons] at h
    cases hk : k == a1 with
    | true =>
      rw [hk] at h
      simp only [Option.some.injEq] at h
      exact ⟨a1, by simp [h]⟩
    | false =>
      rw [hk] at h
      obtain ⟨k2, hk2⟩ := ih h
      exact ⟨k2, by simp [hk2]⟩

theorem renderList_out_no_token (vars : List (String × String))
    (hvals : ∀ p ∈ vars, braceFreeB p.2.data = true) :
    ∀ fuel s out, s.length ≤ fuel → gapsBraceFree fuel s = true →
      renderList vars fuel s = Except.ok out → findToken out = none := by
  intro fuel
  induction fuel with
  | zero =>
    intro s out hlen _ h
    have : s = [] := List.length_eq_zero.mp (Nat.le_zero.mp hlen)
    subst this
    rw [renderList] at h
    simp only [Except.ok.injEq] at h
    subst h
    rfl
  | succ n ih =>
    intro s out hlen hgaps h
    cases s with
    | nil =>
      rw [renderList] at h
      simp only [Except.ok.injEq] at h
      subst h
      rfl
    | cons c cs =>
      cases hf : findToken (c :: cs) with
      | none =>
        rw [renderList, hf] at h
        simp only [Except.ok.injEq] at h
        subst h
        exact hf
      | some gkr =>
        obtain ⟨gap, key, rest⟩ := gkr
        rw [gapsBraceFree, hf] at hgaps
        simp only [Bool.and_eq_true] at hgaps
        obtain ⟨hgap, hgaps2⟩ := hgaps
        rw [renderList, hf] at h
        dsimp only at h
        cases hl : vars.lookup (String.mk key) with
        | none => rw [hl] at h; exact absurd h (by simp)
        | some v =>
          rw [hl] at h
          cases hr : renderList vars n rest with
          | error e => rw [hr] at h; exact absurd h (by simp)
          | ok out2 =>
            rw [hr] at h
            simp only [Except.ok.injEq] at h
            subst h
            have hlen2 : rest.length ≤ n := by
              have h2 := findToken_rest_length (c :: cs) gap key rest hf
              simp only [List.length_cons] at h2 hlen
              omega
            have hout2 := ih rest out2 hlen2 hgaps2 hr
            have hv : braceFreeB v.data = true := by
              obtain ⟨k2, hk2⟩ := lookup_some_mem vars (String.mk key) v hl
              exact hvals (k2, v) hk2
            have hpre : braceFreeB (gap ++ v.data) = true := by
              rw [braceFreeB, List.all_append]
              simp only [Bool.and_eq_true]
              exact ⟨hgap, hv⟩
            have := findToken_append_none (gap ++ v.data) out2 hpre hout2
            simpa [List.append_assoc] using this

/-- C8, amended: rendering is idempotent when every variable value and every
gap before a token of the template is brace-free (the original proviso — no
`{{` in any value — is not sufficient: substitution can splice braces of the
template around substituted text into a new token, see the counterexample). -/
theorem render_template_idempotent (s : String) (vars : List (String × String))
    (hvals : ∀ p ∈ vars, braceFreeB p.2.data = true)
    (hgaps : gapsBraceFree s.data.length s.data = true)
    (out : String) (hok : render_template s vars = Except.ok out) :
    render_template out vars = Except.ok out := by
  rw [render_template] at hok
  cases hr : renderList vars s.data.length s.data with
  | error e => rw [hr] at hok; exact absurd hok (by simp)
  | ok o =>
    rw [hr] at hok
    simp only [Except.ok.injEq] at hok
    have hno : findToken o = none :=
      renderList_out_no_token vars hvals s.data.length s.data o le_rfl hgaps hr
    rw [render_template]
    have hdata : out.data = o := by rw [← hok]
    rw [hdata, renderList_of_findToken_none hno]
    cases out
    simp only at hdata
    simp [hdata]

/-- C8, counterexample to the claim as stated: with the template
`"{{y}}{x}}"` and the single value `"a{"` (which contains no `{{`), one
render succeeds with `"a{{x}}"`, but rendering the result again fails with a
missing variable `x`, because the substitution created a new token. -/
theorem render_template_idempotent_cex :
    List.all [("y", String.mk ['a', lbrace])] (fun p => noDoubleBrace p.2.data) = true ∧
    render_template
        (String.mk [lbrace, lbrace, 'y', rbrace, rbrace, lbrace, 'x', rbrace, rbrace])
        [("y", String.mk ['a', lbrace])]
      = Except.ok (String.mk ['a', lbrace, lbrace, 'x', rbrace, rbrace]) ∧
    render_template (String.mk ['a', lbrace, lbrace, 'x', rbrace, rbrace])
        [("y", String.mk ['a', lbrace])]
      = Except.error (missingVarMsg "x") :=
  ⟨rfl, rfl, rfl⟩

/-- Witness for the amended C8 theorem at a concrete input. -/
theorem render_template_idempotent_witness :
    render_template (String.mk ['h', 'i', ' ', lbrace, lbrace, 'w', 'h', 'o', rbrace, rbrace])
        [("who", "world")] = Except.ok "hi world" ∧
    render_template "hi world" [("who", "world")] = Except.ok "hi world" :=
  ⟨rfl, render_template_idempotent
    (String.mk ['h', 'i', ' ', lbrace, lbrace, 'w', 'h', 'o', rbrace, rbrace])
    [("who", "world")] (by decide) (by decide) "hi world" rfl⟩

/-- C9: template substitution fails exactly when the input contains a
`{{name}}` token whose name is missing from the variable map; the error
message carries the (first) missing name; on inputs with no missing-variable
token substitution succeeds; and `run_step` attributes the error to the step
in whose report it lands. -/
theorem render_template_missing_variable (s : String) (vars : List (String × String)) :
    ((∃ e, render_template s vars = Except.error e) ↔
      ∃ k ∈ scanKeys s.data.length s.data, vars.lookup k = none) ∧
    (∀ k, firstMissingKey vars (scanKeys s.data.length s.data) = some k →
      render_template s vars = Except.error (missingVarMsg k)) ∧
    (∀ step e, render_template s vars = Except.error e →
      run_step_report step (Except.error e) =
        ⟨step.id, step.kind, StepStatus.failed, some e⟩) := by
  have herr : ∀ k, firstMissingKey vars (scanKeys s.data.length s.data) = some k →
      render_template s vars = Except.error (missingVarMsg k) := by
    intro k hk
    rw [render_template, renderList_error_of_firstMissing vars s.data.length s.data k hk]
  refine ⟨⟨?_, ?_⟩, herr, fun step e _ => rfl⟩
  · rintro ⟨e, he⟩
    cases hfm : firstMissingKey vars (scanKeys s.data.length s.data) with
    | none =>
      obtain ⟨o, ho⟩ := renderList_ok_of_firstMissing_none vars s.data.length s.data hfm
      rw [render_template, ho] at he
      exact absurd he (by simp)
    | some k =>
      refine ⟨k, List.mem_of_find?_eq_some hfm, ?_⟩
      have := List.find?_some hfm
      simpa [Option.isNone_iff_eq_none] using this
  · rintro ⟨k, hk, hnone⟩
    have hsome : (firstMissingKey vars (scanKeys s.data.length s.data)).isSome = true := by
      rw [firstMissingKey, List.find?_isSome]
      exact ⟨k, hk, by simp [hnone]⟩
    obtain ⟨k0, hk0⟩ := Option.isSome_iff_exists.mp hsome
    exact ⟨missingVarMsg k0, herr k0 hk0⟩

/-- Witness for the C9 theorem at a concrete input: a missing variable. -/
theorem render_template_missing_variable_witness :
    render_template (String.mk ['h', 'i', ' ', lbrace, lbrace, 'w', 'h', 'o', rbrace, rbrace])
        [] = Except.error (missingVarMsg "who") :=
  (render_template_missing_variable
    (String.mk ['h', 'i', ' ', lbrace, lbrace, 'w', 'h', 'o', rbrace, rbrace]) []).2.1
    "who" (by decide)


/-! ## Lemmas about the invalidation worklists -/

theorem filter_length_mono {α : Type} (l : List α) (p q : α → Bool)
    (h : ∀ x ∈ l, p x = true → q x = true) :
    (l.filter p).length ≤ (l.filter q).length := by
  induction l with
  | nil => simp
  | cons u t ih =>
    have iht := ih fun x hx => h x (by simp [hx])
    by_cases hp : p u = true
    · have hq := h u (by simp) hp
      simp [List.filter_cons, hp, hq]
      omega
    · simp only [List.filter_cons]
      rw [Bool.not_eq_true] at hp
      rw [hp]
      cases hqv : q u <;> simp <;> omega

theorem filter_notmem_cons_length_lt (U : List String) (a : String) (inv : List String)
    (haU : a ∈ U) (hainv : a ∉ inv) :
    (U.filter fun u => decide (u ∉ a :: inv)).length <
      (U.filter fun u => decide (u ∉ inv)).length := by
  induction U with
  | nil => simp at haU
  | cons u t ih =>
    have hmono : (List.filter (fun x => decide (x ∉ a :: inv)) t).length ≤
        (List.filter (fun x => decide (x ∉ inv)) t).length := by
      apply filter_length_mono
      intro x _ hx
      simp only [decide_eq_true_eq] at hx ⊢
      exact fun hmem => hx (by simp [hmem])
    by_cases hua : u = a
    · subst hua
      have h1 : (decide (u ∉ u :: inv)) = false := by simp
      have h2 : (decide (u ∉ inv)) = true := by simpa using hainv
      simp only [List.filter_cons, h1, h2, if_false, if_true, List.length_cons,
        Bool.false_eq_true, Bool.true_eq_false, ite_false, ite_true]
      omega
    · have hat : a ∈ t := by
        rcases List.mem_cons.mp haU with h | h
        · exact absurd h.symm hua
        · exact h
      by_cases hu : u ∈ inv
      · have h1 : (decide (u ∉ a :: inv)) = false := by simp [hu]
        have h2 : (decide (u ∉ inv)) = false := by simp [hu]
        simp only [List.filter_cons, h1, h2, Bool.false_eq_true, ite_false]
        exact ih hat
      · have h1 : (decide (u ∉ a :: inv)) = true := by
          simp only [decide_eq_true_eq, List.mem_cons, not_or]
          exact ⟨hua, hu⟩
        have h2 : (decide (u ∉ inv)) = true := by simpa using hu
        simp only [List.filter_cons, h1, h2, ite_true, List.length_cons]
        exact Nat.succ_lt_succ (ih hat)


theorem wfLoop_isSome (expand : String → List String → List String)
    (U : List String) (T : Nat)
    (hlen : ∀ a inv, (expand a inv).length ≤ T)
    (hsub : ∀ a inv, ∀ o ∈ expand a inv, o ∈ U) :
    ∀ fuel tp inv, (∀ x ∈ tp, x ∈ U) →
      (U.filter fun u => decide (u ∉ inv)).length * (1 + T) + tp.length < fuel →
      (wfLoop expand fuel tp inv).isSome = true := by
  intro fuel
  induction fuel with
  | zero => intro tp inv _ hb; omega
  | succ n ih =>
    intro tp inv htp hb
    cases tp with
    | nil => rw [wfLoop]; rfl
    | cons a rest =>
      rw [wfLoop]
      by_cases ha : a ∈ inv
      · rw [if_pos ha]
        apply ih rest inv (fun x hx => htp x (by simp [hx]))
        simp only [List.length_cons] at hb
        omega
      · rw [if_neg ha]
        apply ih
        · intro x hx
          rcases List.mem_append.mp hx with h | h
          · exact hsub a (a :: inv) x h
          · exact htp x (by simp [h])
        · have haU : a ∈ U := htp a (by simp)
          have hFF := filter_notmem_cons_length_lt U a inv haU ha
          have hmul : ((U.filter fun u => decide (u ∉ a :: inv)).length + 1) * (1 + T) ≤
              (U.filter fun u => decide (u ∉ inv)).length * (1 + T) :=
            Nat.mul_le_mul_right _ hFF
          rw [Nat.succ_mul] at hmul
          have hexp := hlen a (a :: inv)
          simp only [List.length_append, List.length_cons] at hb ⊢
          omega

theorem wfLoop_subset (expand : String → List String → List String) :
    ∀ fuel tp inv r, wfLoop expand fuel tp inv = some r →
      (∀ x ∈ tp, x ∈ r) ∧ (∀ x ∈ inv, x ∈ r) := by
  intro fuel
  induction fuel with
  | zero => intro tp inv r h; simp [wfLoop] at h
  | succ n ih =>
    intro tp inv r h
    cases tp with
    | nil =>
      rw [wfLoop] at h
      simp only [Option.some.injEq] at h
      subst h
      exact ⟨by simp, fun x hx => hx⟩
    | cons a rest =>
      rw [wfLoop] at h
      by_cases ha : a ∈ inv
      · rw [if_pos ha] at h
        obtain ⟨h1, h2⟩ := ih rest inv r h
        refine ⟨fun x hx => ?_, h2⟩
        rcases List.mem_cons.mp hx with rfl | hx2
        · exact h2 x ha
        · exact h1 x hx2
      · rw [if_neg ha] at h
        obtain ⟨h1, h2⟩ := ih _ _ r h
        refine ⟨fun x hx => ?_, fun x hx => h2 x (by simp [hx])⟩
        rcases List.mem_cons.mp hx with rfl | hx2
        · exact h2 x (by simp)
        · exact h1 x (List.mem_append.mpr (Or.inr hx2))

theorem wfLoop_sound (expand : String → List String → List String)
    (P : String → Prop)
    (hP : ∀ a inv, P a → ∀ o ∈ expand a inv, P o) :
    ∀ fuel tp inv r, wfLoop expand fuel tp inv = some r →
      (∀ x ∈ tp, P x) → (∀ x ∈ inv, P x) → ∀ x ∈ r, P x := by
  intro fuel
  induction fuel with
  | zero => intro tp inv r h; simp [wfLoop] at h
  | succ n ih =>
    intro tp inv r h htp hinv
    cases tp with
    | nil =>
      rw [wfLoop] at h
      simp only [Option.some.injEq] at h
      subst h
      exact hinv
    | cons a rest =>
      rw [wfLoop] at h
      by_cases ha : a ∈ inv
      · rw [if_pos ha] at h
        exact ih rest inv r h (fun x hx => htp x (by simp [hx])) hinv
      · rw [if_neg ha] at h
        have hPa : P a := htp a (by simp)
        apply ih _ _ r h
        · intro x hx
          rcases List.mem_append.mp hx with h2 | h2
          · exact hP a (a :: inv) hPa x h2
          · exact htp x (by simp [h2])
        · intro x hx
          rcases List.mem_cons.mp hx with rfl | hx2
          · exact hPa
          · exact hinv x hx2

theorem wfLoop_saturated (expand : String → List String → List String)
    (base : String → List String)
    (hbase : ∀ a inv, ∀ o ∈ base a, o ∉ inv → o ∈ expand a inv) :
    ∀ fuel tp inv r, wfLoop expand fuel tp inv = some r →
      (∀ b ∈ inv, ∀ o ∈ base b, o ∈ inv ∨ o ∈ tp) →
      ∀ b ∈ r, ∀ o ∈ base b, o ∈ r := by
  intro fuel
  induction fuel with
  | zero => intro tp inv r h; simp [wfLoop] at h
  | succ n ih =>
    intro tp inv r h hJ
    cases tp with
    | nil =>
      rw [wfLoop] at h
      simp only [Option.some.injEq] at h
      subst h
      intro b hb o ho
      rcases hJ b hb o ho with h2 | h2
      · exact h2
      · simp at h2
    | cons a rest =>
      rw [wfLoop] at h
      by_cases ha : a ∈ inv
      · rw [if_pos ha] at h
        apply ih rest inv r h
        intro b hb o ho
        rcases hJ b hb o ho with h2 | h2
        · exact Or.inl h2
        · rcases List.mem_cons.mp h2 with rfl | h3
          · exact Or.inl ha
          · exact Or.inr h3
      · rw [if_neg ha] at h
        apply ih _ _ r h
        intro b hb o ho
        rcases List.mem_cons.mp hb with rfl | hb2
        · by_cases hoinv : o ∈ b :: inv
          · exact Or.inl hoinv
          · exact Or.inr (List.mem_append.mpr (Or.inl (hbase b (b :: inv) o ho hoinv)))
        · rcases hJ b hb2 o ho with h2 | h2
          · exact Or.inl (by simp [h2])
          · rcases List.mem_cons.mp h2 with rfl | h3
            · exact Or.inl (by simp)
            · exact Or.inr (List.mem_append.mpr (Or.inr h3))

theorem flatMap_filter_length {α β : Type} (l : List α) (q : α → Bool) (f : α → List β) :
    ((l.filter q).flatMap f).length ≤ (l.flatMap f).length := by
  induction l with
  | nil => simp
  | cons u t ih =>
    simp only [List.filter_cons]
    cases hq : q u
    · simp only [Bool.false_eq_true, ite_false, List.flatMap_cons, List.length_append]
      omega
    · simp only [ite_true, List.flatMap_cons, List.length_append]
      omega


theorem collect_targets_artifacts_mem (state : WorkflowState) (changed x : String) :
    x ∈ collect_targets_artifacts state changed ↔ ConsumesReach state.tasks changed x := by
  have hlen : ∀ a inv, (expandAny state.tasks a inv).length ≤
      (allOutputIds state.tasks).length := by
    intro a inv
    calc (expandAny state.tasks a inv).length
        ≤ (anyConsumerOutputs state.tasks a).length := List.length_filter_le _ _
      _ ≤ (allOutputIds state.tasks).length := flatMap_filter_length _ _ _
  have hsub : ∀ a inv, ∀ o ∈ expandAny state.tasks a inv,
      o ∈ changed :: allOutputIds state.tasks := by
    intro a inv o ho
    obtain ⟨t, ht, hot⟩ := List.mem_flatMap.mp (List.mem_of_mem_filter ho)
    exact List.mem_cons.mpr (Or.inr
      (List.mem_flatMap.mpr ⟨t, List.mem_of_mem_filter ht, hot⟩))
  have hfuel : (wfLoop (expandAny state.tasks) (collectFuel state.tasks changed)
      [changed] []).isSome = true := by
    apply wfLoop_isSome (expandAny state.tasks) (changed :: allOutputIds state.tasks)
      (allOutputIds state.tasks).length hlen hsub
    · intro y hy
      simp only [List.mem_singleton] at hy
      simp [hy]
    · have hfil : ((changed :: allOutputIds state.tasks).filter
          fun u => decide (u ∉ ([] : List String))) = changed :: allOutputIds state.tasks := by
        simp
      rw [hfil, collectFuel]
      simp only [List.length_singleton]
      omega
  obtain ⟨r, hr⟩ := Option.isSome_iff_exists.mp hfuel
  have hcollect : collect_targets_artifacts state changed = r := by
    rw [collect_targets_artifacts, hr]
    rfl
  rw [hcollect]
  constructor
  · intro hx
    refine wfLoop_sound (expandAny state.tasks) (ConsumesReach state.tasks changed)
      ?_ _ _ _ r hr ?_ ?_ x hx
    · intro a inv hPa o ho
      obtain ⟨t, ht, hot⟩ := List.mem_flatMap.mp (List.mem_of_mem_filter ho)
      have ht2 := List.mem_filter.mp ht
      exact ConsumesReach.step a t o hPa ht2.1 ht2.2 hot
    · intro y hy
      simp only [List.mem_singleton] at hy
      subst hy
      exact ConsumesReach.base
    · intro y hy
      simp at hy
  · intro hreach
    induction hreach with
    | base => exact (wfLoop_subset _ _ _ _ r hr).1 changed (by simp)
    | step a t o ha ht hcons hot ih2 =>
      refine wfLoop_saturated (expandAny state.tasks) (anyConsumerOutputs state.tasks)
        ?_ _ _ _ r hr ?_ a ih2 o ?_
      · intro a2 inv o2 ho2 hno
        exact List.mem_filter.mpr ⟨ho2, by simpa using hno⟩
      · intro b hb
        simp at hb
      · exact List.mem_flatMap.mpr ⟨t, List.mem_filter.mpr ⟨ht, hcons⟩, hot⟩

theorem collect_invalidation_targets_mem (state : WorkflowState) (changed x : String) :
    x ∈ collect_invalidation_targets state changed ↔
      ConsumesReachComplete state.tasks changed x := by
  have hlen : ∀ a inv, (expandComplete state.tasks a inv).length ≤
      (allOutputIds state.tasks).length := by
    intro a inv
    calc (expandComplete state.tasks a inv).length
        ≤ (completeConsumerOutputs state.tasks a).length := List.length_filter_le _ _
      _ ≤ (allOutputIds state.tasks).length := flatMap_filter_length _ _ _
  have hsub : ∀ a inv, ∀ o ∈ expandComplete state.tasks a inv,
      o ∈ changed :: allOutputIds state.tasks := by
    intro a inv o ho
    obtain ⟨t, ht, hot⟩ := List.mem_flatMap.mp (List.mem_of_mem_filter ho)
    exact List.mem_cons.mpr (Or.inr
      (List.mem_flatMap.mpr ⟨t, List.mem_of_mem_filter ht, hot⟩))
  have hfuel : (wfLoop (expandComplete state.tasks) (collectFuel state.tasks changed)
      [changed] []).isSome = true := by
    apply wfLoop_isSome (expandComplete state.tasks) (changed :: allOutputIds state.tasks)
      (allOutputIds state.tasks).length hlen hsub
    · intro y hy
      simp only [List.mem_singleton] at hy
      simp [hy]
    · have hfil : ((changed :: allOutputIds state.tasks).filter
          fun u => decide (u ∉ ([] : List String))) = changed :: allOutputIds state.tasks := by
        simp
      rw [hfil, collectFuel]
      simp only [List.length_singleton]
      omega
  obtain ⟨r, hr⟩ := Option.isSome_iff_exists.mp hfuel
  have hcollect : collect_invalidation_targets state changed = r := by
    rw [collect_invalidation_targets, hr]
    rfl
  rw [hcollect]
  constructor
  · intro hx
    refine wfLoop_sound (expandComplete state.tasks)
      (ConsumesReachComplete state.tasks changed) ?_ _ _ _ r hr ?_ ?_ x hx
    · intro a inv hPa o ho
      obtain ⟨t, ht, hot⟩ := List.mem_flatMap.mp (List.mem_of_mem_filter ho)
      have ht2 := List.mem_filter.mp ht
      have hand := Bool.and_eq_true_iff.mp ht2.2
      exact ConsumesReachComplete.step a t o hPa ht2.1 hand.1 hand.2 hot
    · intro y hy
      simp only [List.mem_singleton] at hy
      subst hy
      exact ConsumesReachComplete.base
    · intro y hy
      simp at hy
  · intro hreach
    induction hreach with
    | base => exact (wfLoop_subset _ _ _ _ r hr).1 changed (by simp)
    | step a t o ha ht hcomp hcons hot ih2 =>
      refine wfLoop_saturated (expandComplete state.tasks)
        (completeConsumerOutputs state.tasks) ?_ _ _ _ r hr ?_ a ih2 o ?_
      · intro a2 inv o2 ho2 hno
        exact List.mem_filter.mpr ⟨ho2, by simpa using hno⟩
      · intro b hb
        simp at hb
      · refine List.mem_flatMap.mpr ⟨t, List.mem_filter.mpr ⟨ht, ?_⟩, hot⟩
        rw [Bool.and_eq_true_iff]
        exact ⟨hcomp, hcons⟩

/-- C1, amended: the artifact set collected by `collect_targets`
(`invalidation.rs`) equals the reverse-reachability closure of the changed
artifact over the consumes relation, independent of task statuses; the set
collected by `collect_invalidation_targets` (`helpers.rs`) instead equals
the closure over the consumes relation restricted to `Complete` consuming
tasks — its traversal does depend on the statuses of the consuming tasks. -/
theorem invalidation_collection_characterization (state : WorkflowState) (changed x : String) :
    (x ∈ collect_targets_artifacts state changed ↔ ConsumesReach state.tasks changed x) ∧
    (x ∈ collect_invalidation_targets state changed ↔
      ConsumesReachComplete state.tasks changed x) :=
  ⟨collect_targets_artifacts_mem state changed x,
   collect_invalidation_targets_mem state changed x⟩

/-- C1, counterexample to the claim as stated: a task that consumes `a` and
produces `b` but is merely `Ready` (not `Complete`).  `b` is in the
status-independent reverse-reachability closure of `a`, but
`collect_invalidation_targets` does not collect it, because its traversal
follows only `Complete` consuming tasks. -/
theorem collect_invalidation_targets_cex :
    ConsumesReach exStateReady.tasks "a" "b" ∧
    "b" ∉ collect_invalidation_targets exStateReady "a" :=
  ⟨ConsumesReach.step "a" exTaskReady "b" ConsumesReach.base (by decide) (by decide)
    (by decide), by decide⟩

/-- Witness for the amended C1 theorem at a concrete input: with the
consuming task `Complete`, both collectors pick up the downstream output. -/
theorem invalidation_collection_witness :
    ConsumesReach exStateComplete.tasks "a" "b" ∧
    ConsumesReachComplete exStateComplete.tasks "a" "b" :=
  ⟨(invalidation_collection_characterization exStateComplete "a" "b").1.mp (by decide),
   (invalidation_collection_characterization exStateComplete "a" "b").2.mp (by decide)⟩


/-! ## Lemmas about the scheduler's occupation accounting -/

theorem mem_setInsert_self (l : List String) (x : String) : x ∈ setInsert l x := by
  rw [setInsert]
  split
  · assumption
  · simp

theorem mem_setInsert_of_mem (l : List String) (x y : String) (h : y ∈ l) :
    y ∈ setInsert l x := by
  rw [setInsert]
  split
  · exact h
  · simp [h]

theorem sched_reach_inv (s : Scheduler) (rts : List Task) (h : SchedReach s rts) :
    (rts.map Task.id).Nodup ∧
    (∀ t ∈ rts, ∀ g, t.constraints.sequentialGroup = some g → g ∈ s.occupiedGroups) ∧
    (∀ t ∈ rts, ∀ rr, t.constraints.resource = some rr → rr ∈ s.occupiedResources) ∧
    MutexFree rts := by
  induction h with
  | init =>
    refine ⟨by simp, by simp, by simp, ?_⟩
    intro t1 h1
    simp at h1
  | startStep s rts t st hreach hrun hid ih =>
    obtain ⟨hnd, hg, hr, hmx⟩ := ih
    have hblocked : s.isBlocked t = false := by
      have h2 := (List.mem_filter.mp hrun).2
      rw [Bool.and_eq_true] at h2
      simpa using h2.2
    have hgfree : ∀ g, t.constraints.sequentialGroup = some g → g ∉ s.occupiedGroups := by
      intro g hgt hmem
      rw [Scheduler.isBlocked, hgt] at hblocked
      simp [hmem] at hblocked
    have hrfree : ∀ rr, t.constraints.resource = some rr → rr ∉ s.occupiedResources := by
      intro rr hrt hmem
      rw [Scheduler.isBlocked, hrt] at hblocked
      simp [hmem] at hblocked
    refine ⟨?_, ?_, ?_, ?_⟩
    · simp only [List.map_cons, List.nodup_cons]
      exact ⟨hid, hnd⟩
    · intro t2 ht2 g hgt2
      rcases List.mem_cons.mp ht2 with rfl | hmem2
      · rw [start_task]
        simp only [hgt2]
        exact mem_setInsert_self _ _
      · have := hg t2 hmem2 g hgt2
        rw [start_task]
        cases hsgt : t.constraints.sequentialGroup with
        | none => simpa using this
        | some g0 => simpa using mem_setInsert_of_mem _ g0 g this
    · intro t2 ht2 rr hrt2
      rcases List.mem_cons.mp ht2 with rfl | hmem2
      · rw [start_task]
        simp only [hrt2]
        exact mem_setInsert_self _ _
      · have := hr t2 hmem2 rr hrt2
        rw [start_task]
        cases hres : t.constraints.resource with
        | none => simpa using this
        | some r0 => simpa using mem_setInsert_of_mem _ r0 rr this
    · intro t1 ht1 t2 ht2 hne
      rcases List.mem_cons.mp ht1 with rfl | hm1 <;>
        rcases List.mem_cons.mp ht2 with h2 | hm2
      · exact absurd h2.symm hne
      · constructor
        · intro g hg1 hg2
          exact hgfree g hg1 (hg t2 hm2 g hg2)
        · intro rr hr1 hr2
          exact hrfree rr hr1 (hr t2 hm2 rr hr2)
      · subst h2
        constructor
        · intro g hg1 hg2
          exact hgfree g hg2 (hg t1 hm1 g hg1)
        · intro rr hr1 hr2
          exact hrfree rr hr2 (hr t1 hm1 rr hr1)
      · exact hmx t1 hm1 t2 hm2 hne
  | finishStep s rts t hreach htmem ih =>
    obtain ⟨hnd, hg, hr, hmx⟩ := ih
    have hvnd : rts.Nodup := List.Nodup.of_map _ hnd
    refine ⟨?_, ?_, ?_, ?_⟩
    · exact List.Nodup.sublist (List.Sublist.map _ (List.erase_sublist t rts)) hnd
    · intro t2 ht2 g hgt2
      have hh := (List.Nodup.mem_erase_iff hvnd).mp ht2
      have hmem := hg t2 hh.2 g hgt2
      rw [finish_task]
      cases hsgt : t.constraints.sequentialGroup with
      | none => simpa using hmem
      | some g0 =>
        have hne : g ≠ g0 := by
          intro heq
          subst heq
          exact (hmx t htmem t2 hh.2 (Ne.symm hh.1)).1 g hsgt hgt2
        simpa using (List.mem_erase_of_ne hne).mpr hmem
    · intro t2 ht2 rr hrt2
      have hh := (List.Nodup.mem_erase_iff hvnd).mp ht2
      have hmem := hr t2 hh.2 rr hrt2
      rw [finish_task]
      cases hres : t.constraints.resource with
      | none => simpa using hmem
      | some r0 =>
        have hne : rr ≠ r0 := by
          intro heq
          subst heq
          exact (hmx t htmem t2 hh.2 (Ne.symm hh.1)).2 rr hres hrt2
        simpa using (List.mem_erase_of_ne hne).mpr hmem
    · intro t1 ht1 t2 ht2 hne
      exact hmx t1 ((List.Nodup.mem_erase_iff hvnd).mp ht1).2
        t2 ((List.Nodup.mem_erase_iff hvnd).mp ht2).2 hne

/-- C3: along every properly paired operation sequence in which each started
task was returned by `get_runnable_tasks`, no two simultaneously running
tasks share a sequential group or a resource; and `get_runnable_tasks` never
returns a task whose group or resource is currently occupied. -/
theorem scheduler_mutual_exclusion (s : Scheduler) (rts : List Task)
    (h : SchedReach s rts) :
    MutexFree rts ∧
    (∀ state t, t ∈ get_runnable_tasks s state →
      (∀ g, t.constraints.sequentialGroup = some g → g ∉ s.occupiedGroups) ∧
      (∀ rr, t.constraints.resource = some rr → rr ∉ s.occupiedResources)) := by
  refine ⟨(sched_reach_inv s rts h).2.2.2, ?_⟩
  intro state t ht
  have h2 := (List.mem_filter.mp ht).2
  rw [Bool.and_eq_true] at h2
  have hb : s.isBlocked t = false := by simpa using h2.2
  constructor
  · intro g hgt hmem
    rw [Scheduler.isBlocked, hgt] at hb
    simp [hmem] at hb
  · intro rr hrt hmem
    rw [Scheduler.isBlocked, hrt] at hb
    simp [hmem] at hb

/-- Witness for the C3 theorem: a concrete reachable configuration obtained
by starting one runnable task from the initial scheduler. -/
theorem scheduler_mutual_exclusion_witness : MutexFree [exTaskTts] :=
  (scheduler_mutual_exclusion (start_task Scheduler.init exTaskTts) [exTaskTts]
    (SchedReach.startStep Scheduler.init [] exTaskTts exStateTts SchedReach.init
      (by decide) (by decide))).1


/-! ## Lemmas about the task-status refresh -/

theorem mem_availableIds (state : WorkflowState) (a : String) :
    a ∈ availableIds state ↔ RequiredAvailable state a := by
  rw [availableIds, RequiredAvailable]
  constructor
  · intro h
    obtain ⟨art, hart, rfl⟩ := List.mem_map.mp h
    have h2 := List.mem_filter.mp hart
    refine ⟨art, h2.1, rfl, ?_⟩
    have h3 := h2.2
    rw [Bool.or_eq_true] at h3
    rcases h3 with h4 | h4
    · exact Or.inl (by simpa using h4)
    · exact Or.inr (by simpa using h4)
  · rintro ⟨art, hart, rfl, hst⟩
    refine List.mem_map.mpr ⟨art, List.mem_filter.mpr ⟨hart, ?_⟩, rfl⟩
    rcases hst with h3 | h3 <;> simp [h3]

theorem foldl_producer_some (a : String) :
    ∀ (pairs : List (String × String)) (acc : Option String) (v : String),
      pairs.foldl (fun acc p => if p.1 = a then some p.2 else acc) acc = some v →
      (a, v) ∈ pairs ∨ acc = some v := by
  intro pairs
  induction pairs with
  | nil => intro acc v h; exact Or.inr h
  | cons p t ih =>
    intro acc v h
    rw [List.foldl_cons] at h
    rcases ih _ v h with h2 | h2
    · exact Or.inl (by simp [h2])
    · by_cases hp : p.1 = a
      · rw [if_pos hp] at h2
        simp only [Option.some.injEq] at h2
        subst h2
        subst hp
        exact Or.inl (by simp)
      · rw [if_neg hp] at h2
        exact Or.inr h2

theorem foldl_producer_none (a : String) :
    ∀ (pairs : List (String × String)) (acc : Option String),
      pairs.foldl (fun acc p => if p.1 = a then some p.2 else acc) acc = none ↔
      (acc = none ∧ ∀ p ∈ pairs, p.1 ≠ a) := by
  intro pairs
  induction pairs with
  | nil => intro acc; simp
  | cons p t ih =>
    intro acc
    rw [List.foldl_cons, ih]
    by_cases hp : p.1 = a
    · rw [if_pos hp]
      simp [hp]
    · rw [if_neg hp]
      constructor
      · rintro ⟨h1, h2⟩
        exact ⟨h1, fun q hq => by
          rcases List.mem_cons.mp hq with rfl | hq2
          · exact hp
          · exact h2 q hq2⟩
      · rintro ⟨h1, h2⟩
        exact ⟨h1, fun q hq => h2 q (by simp [hq])⟩

theorem mem_producerPairs (tasks : List Task) (a pid : String) :
    (a, pid) ∈ producerPairs tasks ↔
      ∃ t ∈ tasks, (∃ o ∈ t.outputs, o.artifact = a) ∧ t.id = pid := by
  rw [producerPairs]
  constructor
  · intro h
    obtain ⟨t, ht, hmem⟩ := List.mem_flatMap.mp h
    obtain ⟨o, ho, heq⟩ := List.mem_map.mp hmem
    simp only [Prod.mk.injEq] at heq
    exact ⟨t, ht, ⟨o, ho, heq.1⟩, heq.2⟩
  · rintro ⟨t, ht, ⟨o, ho, hoa⟩, hid⟩
    exact List.mem_flatMap.mpr ⟨t, ht, List.mem_map.mpr ⟨o, ho, by simp [hoa, hid]⟩⟩

theorem producersGet_some (tasks : List Task) (a pid : String)
    (h : producersGet tasks a = some pid) :
    ∃ t ∈ tasks, (∃ o ∈ t.outputs, o.artifact = a) ∧ t.id = pid := by
  rcases foldl_producer_some a (producerPairs tasks) none pid h with h2 | h2
  · exact (mem_producerPairs tasks a pid).mp h2
  · simp at h2

theorem producersGet_none_iff (tasks : List Task) (a : String) :
    producersGet tasks a = none ↔ ¬ HasProducer tasks a := by
  rw [producersGet, foldl_producer_none]
  simp only [true_and]
  constructor
  · rintro h ⟨t, ht, o, ho, hoa⟩
    exact h (a, t.id) ((mem_producerPairs tasks a t.id).mpr ⟨t, ht, ⟨o, ho, hoa⟩, rfl⟩) rfl
  · intro h p hp hpa
    obtain ⟨a1, pid⟩ := p
    simp only at hpa
    subst hpa
    obtain ⟨t, ht, ⟨o, ho, hoa⟩, hid⟩ := (mem_producerPairs tasks a1 pid).mp hp
    exact h ⟨t, ht, o, ho, hoa⟩

theorem waitingList_eq (state : WorkflowState) (t : Task) :
    waitingList state t = (unsatRequired state t).map
      (fun a => (producersGet state.tasks a).getD ("artifact:" ++ a)) := by
  rw [waitingList, unsatRequired, requiredIds]
  induction t.inputs with
  | nil => simp
  | cons i rest ih =>
    cases i with
    | required a =>
      simp only [List.filterMap_cons]
      by_cases hav : a ∈ availableIds state
      · have hra : RequiredAvailable state a := (mem_availableIds state a).mp hav
        rw [if_pos hav]
        simp only [List.filter_cons, decide_eq_true_eq]
        rw [if_neg (by simpa using hra)]
        exact ih
      · have hra : ¬ RequiredAvailable state a := fun h =>
          hav ((mem_availableIds state a).mpr h)
        rw [if_neg hav]
        simp only [List.filter_cons, decide_eq_true_eq]
        rw [if_pos (by simpa using hra)]
        simp only [List.map_cons, List.cons.injEq]
        exact ⟨by simp, ih⟩
    | optionalSpec a d =>
      simp only [List.filterMap_cons]
      exact ih
    | placeholder a k =>
      simp only [List.filterMap_cons]
      exact ih

/-- C4: for a task that is neither running nor terminal, the refresh sets
`Ready` exactly when every `Required` input is available (`Ready` or
`Placeholder` artifact), and otherwise `Blocked` with one wait entry per
unsatisfied required input — the producing task's id when a producer exists,
the `artifact:<id>` token otherwise; `Optional` and `Placeholder` inputs
never contribute. -/
theorem update_task_statuses_spec (state : WorkflowState) (t : Task)
    (ht : t ∈ state.tasks) (hfrozen : statusFrozen t = false) :
    ((update_task state t).status = TaskStatus.ready ↔
      ∀ a ∈ requiredIds t, RequiredAvailable state a) ∧
    (∀ w, (update_task state t).status = TaskStatus.blocked w →
      w = (unsatRequired state t).map
        (fun a => (producersGet state.tasks a).getD ("artifact:" ++ a)) ∧
      w.length = (unsatRequired state t).length) ∧
    (∀ a ∈ unsatRequired state t,
      (HasProducer state.tasks a →
        ∃ p ∈ state.tasks, (∃ o ∈ p.outputs, o.artifact = a) ∧
          (producersGet state.tasks a).getD ("artifact:" ++ a) = p.id) ∧
      (¬ HasProducer state.tasks a →
        (producersGet state.tasks a).getD ("artifact:" ++ a) = "artifact:" ++ a)) ∧
    (update_all_task_statuses state).tasks = state.tasks.map (update_task state) := by
  have hunsat : unsatRequired state t = [] ↔
      ∀ a ∈ requiredIds t, RequiredAvailable state a := by
    rw [unsatRequired, List.filter_eq_nil_iff]
    constructor
    · intro h a ha
      have := h a ha
      simpa using this
    · intro h a ha
      simpa using h a ha
  have hup : update_task state t =
      { t with status :=
          if (waitingList state t).isEmpty then TaskStatus.ready
          else TaskStatus.blocked (waitingList state t) } := by
    rw [update_task, if_neg (by simp [hfrozen])]
  refine ⟨?_, ?_, ?_, rfl⟩
  · rw [hup]
    simp only [waitingList_eq]
    by_cases hemp : unsatRequired state t = []
    · rw [hemp]
      simp only [List.map_nil, List.isEmpty_nil, if_true]
      simpa using hunsat.mp hemp
    · have : ¬ ((unsatRequired state t).map
          (fun a => (producersGet state.tasks a).getD ("artifact:" ++ a))).isEmpty = true := by
        simpa [List.isEmpty_iff] using hemp
      rw [if_neg this]
      simp only [reduceCtorEq, false_iff]
      intro hall
      exact hemp (hunsat.mpr hall)
  · intro w hw
    rw [hup] at hw
    simp only [waitingList_eq] at hw
    by_cases hemp : ((unsatRequired state t).map
        (fun a => (producersGet state.tasks a).getD ("artifact:" ++ a))).isEmpty = true
    · rw [if_pos hemp] at hw
      exact absurd hw (by simp)
    · rw [if_neg hemp] at hw
      simp only [TaskStatus.blocked.injEq] at hw
      subst hw
      exact ⟨by simp, by simp⟩
  · intro a _
    constructor
    · intro hprod
      cases hpg : producersGet state.tasks a with
      | none => exact absurd hprod (by rwa [producersGet_none_iff] at hpg)
      | some pid =>
        obtain ⟨p, hp, hpo, hpid⟩ := producersGet_some state.tasks a pid hpg
        exact ⟨p, hp, hpo, by simp [hpid]⟩
    · intro hnoprod
      rw [(producersGet_none_iff state.tasks a).mpr hnoprod]
      rfl

/-- Witness for the C4 theorem: a `Ready` task with one unsatisfied required
input and no producer for it. -/
theorem update_task_statuses_witness :
    ((update_task exStateReady exTaskReady).status = TaskStatus.ready ↔
      ∀ a ∈ requiredIds exTaskReady, RequiredAvailable exStateReady a) ∧
    (update_task exStateReady exTaskReady).status = TaskStatus.blocked ["artifact:a"] :=
  ⟨(update_task_statuses_spec exStateReady exTaskReady (by decide) (by decide)).1,
   by decide⟩

/-- C10: the refresh is frame-preserving: artifacts and all non-task state
fields are untouched, tasks are rewritten pointwise, a running or terminal
task keeps exactly its prior status (error message and skip reason
included), every other field of every task is preserved, and only tasks that
were `Ready` or `Blocked` can change. -/
theorem update_task_statuses_frame (state : WorkflowState) :
    (update_all_task_statuses state).artifacts = state.artifacts ∧
    (update_all_task_statuses state).workflowName = state.workflowName ∧
    (update_all_task_statuses state).version = state.version ∧
    (update_all_task_statuses state).complete = state.complete ∧
    (update_all_task_statuses state).error = state.error ∧
    (update_all_task_statuses state).tasks = state.tasks.map (update_task state) ∧
    ∀ t ∈ state.tasks,
      (statusFrozen t = true → update_task state t = t) ∧
      (update_task state t ≠ t →
        t.status = TaskStatus.ready ∨ ∃ w, t.status = TaskStatus.blocked w) ∧
      (update_task state t).id = t.id ∧
      (update_task state t).name = t.name ∧
      (update_task state t).kind = t.kind ∧
      (update_task state t).inputs = t.inputs ∧
      (update_task state t).outputs = t.outputs ∧
      (update_task state t).constraints = t.constraints := by
  refine ⟨rfl, rfl, rfl, rfl, rfl, rfl, ?_⟩
  intro t _
  have hfields : (update_task state t).id = t.id ∧ (update_task state t).name = t.name ∧
      (update_task state t).kind = t.kind ∧ (update_task state t).inputs = t.inputs ∧
      (update_task state t).outputs = t.outputs ∧
      (update_task state t).constraints = t.constraints := by
    rw [update_task]
    split <;> exact ⟨rfl, rfl, rfl, rfl, rfl, rfl⟩
  refine ⟨?_, ?_, hfields.1, hfields.2.1, hfields.2.2.1, hfields.2.2.2.1,
    hfields.2.2.2.2.1, hfields.2.2.2.2.2⟩
  · intro hf
    rw [update_task, if_pos hf]
  · intro hne
    by_cases hf : statusFrozen t = true
    · exact absurd (by rw [update_task, if_pos hf]) hne
    · rw [Bool.not_eq_true] at hf
      cases hst : t.status with
      | ready => exact Or.inl rfl
      | blocked w => exact Or.inr ⟨w, rfl⟩
      | running => rw [statusFrozen, hst] at hf; simp at hf
      | complete => rw [statusFrozen] at hf; simp [Task.is_complete, hst] at hf
      | failed e => rw [statusFrozen, hst] at hf; simp at hf
      | skipped rr => rw [statusFrozen, hst] at hf; simp at hf

/-- Witness for the C10 theorem: a `Complete` task is left untouched. -/
theorem update_task_statuses_frame_witness :
    update_task exStateComplete exTaskComplete = exTaskComplete :=
  ((update_task_statuses_frame exStateComplete).2.2.2.2.2.2 exTaskComplete
    (by decide)).1 (by decide)


/-! ## Lemmas about the execution engine -/

theorem mem_setInsert (l : List String) (x y : String) :
    y ∈ setInsert l x ↔ y = x ∨ y ∈ l := by
  rw [setInsert]
  split
  · constructor
    · exact Or.inr
    · rintro (rfl | h)
      · assumption
      · exact h
  · simp [List.mem_cons]

theorem lookup_filter_ne (m : List (String × StepReport)) (c k : String) (hck : c ≠ k) :
    (m.filter fun p => decide (p.1 ≠ k)).lookup c = m.lookup c := by
  induction m with
  | nil => simp
  | cons p t ih =>
    obtain ⟨p1, p2⟩ := p
    by_cases hpk : p1 = k
    · subst hpk
      have h1 : (decide (p1 ≠ p1)) = false := by simp
      simp only [List.filter_cons, h1, Bool.false_eq_true, ite_false]
      rw [ih, List.lookup_cons]
      have : (c == p1) = false := by simpa using hck
      rw [this]
    · have h1 : (decide (p1 ≠ k)) = true := by simpa using hpk
      simp only [List.filter_cons, h1, ite_true]
      rw [List.lookup_cons, List.lookup_cons]
      cases hcp : c == p1
      · rw [ih]
      · rfl

theorem lookup_hmInsert_self (m : List (String × StepReport)) (k : String) (v : StepReport) :
    (hmInsert m k v).lookup k = some v := by
  rw [hmInsert, List.lookup_cons]
  simp

theorem lookup_hmInsert_ne (m : List (String × StepReport)) (c k : String)
    (v : StepReport) (hck : c ≠ k) : (hmInsert m k v).lookup c = m.lookup c := by
  rw [hmInsert, List.lookup_cons]
  have : (c == k) = false := by simpa using hck
  rw [this]
  exact lookup_filter_ne m c k hck

theorem process_step_completed_sub (steps : List StepC) (sk : String → Bool)
    (ex : String → Except String Unit) (st : EngineState) (sid : String) :
    (∀ x ∈ st.completed, x ∈ (process_step steps sk ex st sid).completed) ∧
    (∀ x ∈ (process_step steps sk ex st sid).completed, x ∈ st.completed ∨ x = sid) := by
  rw [process_step]
  cases lookupStep steps sid with
  | none => exact ⟨fun x hx => hx, fun x hx => Or.inl hx⟩
  | some step =>
    dsimp only
    by_cases hsk : sk sid
    · rw [if_pos hsk]
      exact ⟨fun x hx => mem_setInsert_of_mem _ _ _ hx,
        fun x hx => by
          rcases (mem_setInsert _ _ _).mp hx with rfl | h
          · exact Or.inr rfl
          · exact Or.inl h⟩
    · rw [if_neg hsk]
      cases ex sid with
      | ok u =>
        exact ⟨fun x hx => mem_setInsert_of_mem _ _ _ hx,
          fun x hx => by
            rcases (mem_setInsert _ _ _).mp hx with rfl | h
            · exact Or.inr rfl
            · exact Or.inl h⟩
      | error e => exact ⟨fun x hx => hx, fun x hx => Or.inl hx⟩

theorem process_step_good (steps : List StepC) (sk : String → Bool)
    (ex : String → Except String Unit) (st : EngineState) (sid : String)
    (hgood : GoodEvents st)
    (hdeps : ∀ step, lookupStep steps sid = some step →
      ∀ d ∈ step.dependsOn, d ∈ st.completed)
    (hnotin : sid ∉ st.completed) :
    GoodEvents (process_step steps sk ex st sid) := by
  obtain ⟨hev, hco⟩ := hgood
  rw [process_step]
  cases hls : lookupStep steps sid with
  | none => exact ⟨hev, hco⟩
  | some step =>
    dsimp only
    have hinsert : ∀ rep : StepReport,
        (rep.status = StepStatus.ok ∨ rep.status = StepStatus.skipped) →
        ReportsOkSkip (setInsert st.completed sid) (hmInsert st.reports sid rep) := by
      intro rep hst c hc
      rcases (mem_setInsert _ _ _).mp hc with rfl | h
      · exact ⟨rep, lookup_hmInsert_self _ _ _, hst⟩
      · have hcs : c ≠ sid := fun heq => hnotin (heq ▸ h)
        obtain ⟨r0, hr0, hst0⟩ := hco c h
        exact ⟨r0, by rw [lookup_hmInsert_ne _ _ _ _ hcs]; exact hr0, hst0⟩
    by_cases hsk : sk sid
    · rw [if_pos hsk]
      exact ⟨hev, hinsert (skipped_report step) (Or.inr rfl)⟩
    · rw [if_neg hsk]
      cases hex : ex sid with
      | ok u =>
        refine ⟨?_, hinsert (run_step_report step (Except.ok ())) (Or.inl rfl)⟩
        intro ev hevm
        rcases List.mem_cons.mp hevm with rfl | h
        · exact ⟨hdeps step hls, hco⟩
        · exact hev ev h
      | error e =>
        refine ⟨?_, ?_⟩
        · intro ev hevm
          rcases List.mem_cons.mp hevm with rfl | h
          · exact ⟨hdeps step hls, hco⟩
          · exact hev ev h
        · intro c hc
          have hcs : c ≠ sid := fun heq => hnotin (heq ▸ hc)
          obtain ⟨r0, hr0, hst0⟩ := hco c hc
          exact ⟨r0, by rw [lookup_hmInsert_ne _ _ _ _ hcs]; exact hr0, hst0⟩

theorem fold_process_good (steps : List StepC) (sk : String → Bool)
    (ex : String → Except String Unit) :
    ∀ (batch : List String) (st : EngineState), GoodEvents st →
      (∀ sid ∈ batch, sid ∉ st.completed) → batch.Nodup →
      (∀ sid ∈ batch, ∀ step, lookupStep steps sid = some step →
        ∀ d ∈ step.dependsOn, d ∈ st.completed) →
      GoodEvents (batch.foldl (process_step steps sk ex) st) := by
  intro batch
  induction batch with
  | nil => intro st hgood _ _ _; exact hgood
  | cons h tl ih =>
    intro st hgood hnotin hnd hdeps
    rw [List.foldl_cons]
    have hnd2 := List.nodup_cons.mp hnd
    apply ih
    · exact process_step_good steps sk ex st h hgood
        (hdeps h (by simp)) (hnotin h (by simp))
    · intro sid hsid hmem
      rcases (process_step_completed_sub steps sk ex st h).2 sid hmem with h2 | h2
      · exact hnotin sid (by simp [hsid]) h2
      · subst h2
        exact hnd2.1 hsid
    · exact hnd2.2
    · intro sid hsid step hstep d hd
      exact (process_step_completed_sub steps sk ex st h).1 d
        (hdeps sid (by simp [hsid]) step hstep d hd)

theorem find_runnable_mem (steps : List StepC) (completed failed blocked : List String)
    (sid : String) :
    sid ∈ find_runnable steps completed failed blocked ↔
      ∃ s ∈ steps, s.id = sid ∧ s.id ∉ completed ∧ s.id ∉ failed ∧ s.id ∉ blocked ∧
        ∀ d ∈ s.dependsOn, d ∈ completed := by
  rw [find_runnable]
  constructor
  · intro h
    obtain ⟨s, hs, rfl⟩ := List.mem_map.mp h
    have h2 := List.mem_filter.mp hs
    have h3 := h2.2
    simp only [Bool.and_eq_true, decide_eq_true_eq, List.all_eq_true] at h3
    exact ⟨s, h2.1, rfl, h3.1.1.1, h3.1.1.2, h3.1.2, fun d hd => by
      have := h3.2 d hd
      simpa using this⟩
  · rintro ⟨s, hs, rfl, h1, h2, h3, h4⟩
    refine List.mem_map.mpr ⟨s, List.mem_filter.mpr ⟨hs, ?_⟩, rfl⟩
    simp only [Bool.and_eq_true, decide_eq_true_eq, List.all_eq_true]
    exact ⟨⟨⟨h1, h2⟩, h3⟩, fun d hd => by simpa using h4 d hd⟩

theorem lookupStep_mem (steps : List StepC) (sid : String) :
    ∀ (acc : Option StepC) (step : StepC),
      steps.foldl (fun acc s => if s.id = sid then some s else acc) acc = some step →
      (step ∈ steps ∧ step.id = sid) ∨ acc = some step := by
  induction steps with
  | nil => intro acc step h; exact Or.inr h
  | cons s t ih =>
    intro acc step h
    rw [List.foldl_cons] at h
    rcases ih _ step h with h2 | h2
    · exact Or.inl ⟨by simp [h2.1], h2.2⟩
    · by_cases hs : s.id = sid
      · rw [if_pos hs] at h2
        simp only [Option.some.injEq] at h2
        subst h2
        exact Or.inl ⟨by simp, hs⟩
      · rw [if_neg hs] at h2
        exact Or.inr h2

theorem exec_loop_good (steps : List StepC) (sk : String → Bool)
    (ex : String → Except String Unit) (hnd : (steps.map StepC.id).Nodup) :
    ∀ (fuel : Nat) (lastCnt : Option Nat) (st : EngineState), GoodEvents st →
      GoodEvents (exec_loop steps sk ex fuel lastCnt st) := by
  intro fuel
  induction fuel with
  | zero => intro lastCnt st hgood; exact hgood
  | succ n ih =>
    intro lastCnt st hgood
    rw [exec_loop]
    by_cases hempty : (find_runnable steps st.completed st.failed st.blocked).isEmpty
    · rw [if_pos hempty]
      exact hgood
    · rw [if_neg hempty]
      by_cases hlast : lastCnt =
          some (find_runnable steps st.completed st.failed st.blocked).length
      · rw [if_pos hlast]
        exact hgood
      · rw [if_neg hlast]
        apply ih
        apply fold_process_good steps sk ex _ st hgood
        · intro sid hsid
          obtain ⟨s, _, rfl, h1, _, _, _⟩ :=
            (find_runnable_mem steps _ _ _ sid).mp hsid
          exact h1
        · rw [find_runnable]
          exact List.Nodup.sublist
            (List.Sublist.map StepC.id (List.filter_sublist steps)) hnd
        · intro sid hsid step hstep d hd
          obtain ⟨s, hsmem, hsid2, _, _, _, hdc⟩ :=
            (find_runnable_mem steps _ _ _ sid).mp hsid
          rcases lookupStep_mem steps sid none step hstep with h2 | h2
          · have heq : s = step :=
              List.inj_on_of_nodup_map hnd hsmem h2.1 (by rw [h2.2, hsid2])
            subst heq
            exact hdc d hd
          · simp at h2


theorem execute_dag_events_eq (steps : List StepC) (sk : String → Bool)
    (ex : String → Except String Unit) (name : String) (fuel : Nat) :
    (execute_dag steps sk ex name fuel).2 =
      (exec_loop steps sk ex fuel none EngineState.start).events := by
  rw [execute_dag]
  split <;> rfl

/-- C2: every step selected by `find_runnable` has all of its `depends_on`
predecessors in the completed set, and at every dispatch of the execution
loop (for any oracles and any fuel) all of the dispatched step's
dependencies are in the completed set at that moment, a set consisting
exactly of steps whose current report is `Ok` or `Skipped`. -/
theorem execute_dag_topological (steps : List StepC) (sk : String → Bool)
    (ex : String → Except String Unit) (name : String) (fuel : Nat)
    (hnd : (steps.map StepC.id).Nodup) :
    (∀ ev ∈ (execute_dag steps sk ex name fuel).2,
      (∀ d ∈ ev.step.dependsOn, d ∈ ev.completedAt) ∧
      (∀ c ∈ ev.completedAt, ∃ rep, ev.reportsAt.lookup c = some rep ∧
        (rep.status = StepStatus.ok ∨ rep.status = StepStatus.skipped))) ∧
    (∀ completed failed blocked sid, sid ∈ find_runnable steps completed failed blocked →
      ∃ s ∈ steps, s.id = sid ∧ ∀ d ∈ s.dependsOn, d ∈ completed) := by
  constructor
  · intro ev hev
    rw [execute_dag_events_eq] at hev
    have hstart : GoodEvents EngineState.start := by
      constructor
      · intro e he
        simp [EngineState.start] at he
      · intro c hc
        simp [EngineState.start] at hc
    have hfinal := exec_loop_good steps sk ex hnd fuel none EngineState.start hstart
    exact hfinal.1 ev hev
  · intro completed failed blocked sid hsid
    obtain ⟨s, hs, hid, _, _, _, hdc⟩ := (find_runnable_mem steps _ _ _ sid).mp hsid
    exact ⟨s, hs, hid, hdc⟩

/-- Witness for the C2 theorem at a concrete two-step chain. -/
theorem execute_dag_topological_witness :
    ∃ s ∈ [exStepA, exStepB], s.id = "a" ∧ ∀ d ∈ s.dependsOn, d ∈ ([] : List String) :=
  (execute_dag_topological [exStepA, exStepB] (fun _ => false) (fun _ => Except.ok ())
    "wf" 3 (by decide)).2 [] [] [] "a" (by decide)

theorem countStatus_pos_iff (rs : List StepReport) (st : StepStatus) :
    0 < countStatus rs st ↔ ∃ r ∈ rs, r.status = st := by
  rw [countStatus, List.length_pos]
  constructor
  · intro h
    rcases List.exists_mem_of_ne_nil _ h with ⟨r, hr⟩
    have h2 := List.mem_filter.mp hr
    exact ⟨r, h2.1, by simpa using h2.2⟩
  · rintro ⟨r, hr, hst⟩
    intro hnil
    have := List.filter_eq_nil_iff.mp hnil r hr
    simp [hst] at this

theorem execute_dag_outcome_eq (steps : List StepC) (sk : String → Bool)
    (ex : String → Except String Unit) (name : String) (fuel : Nat) :
    (execute_dag steps sk ex name fuel).1 =
      (if countStatus (collect_reports steps (add_pending_reports steps
            (exec_loop steps sk ex fuel none EngineState.start))) StepStatus.failed > 0 ||
          countStatus (collect_reports steps (add_pending_reports steps
            (exec_loop steps sk ex fuel none EngineState.start))) StepStatus.blocked > 0 then
        ExecOutcome.failedRun "Workflow completed with failures"
          ⟨name, collect_reports steps (add_pending_reports steps
            (exec_loop steps sk ex fuel none EngineState.start))⟩
      else
        ExecOutcome.ok ⟨name, collect_reports steps (add_pending_reports steps
          (exec_loop steps sk ex fuel none EngineState.start))⟩) := by
  rw [execute_dag]
  split <;> rfl

/-- C5: `execute_dag` returns an error exactly when some step's final report
is `Failed` or `Blocked`; it returns the successful `RunReport` exactly when
every step's final report is `Ok` or `Skipped`; and the CLI exit status is 0
iff no step is `Failed` or `Blocked`. -/
theorem execute_dag_failure_classification (steps : List StepC) (sk : String → Bool)
    (ex : String → Except String Unit) (name : String) (fuel : Nat) :
    ((∃ msg rep, (execute_dag steps sk ex name fuel).1 = ExecOutcome.failedRun msg rep) ↔
      ∃ r ∈ (outcomeReport (execute_dag steps sk ex name fuel).1).steps,
        r.status = StepStatus.failed ∨ r.status = StepStatus.blocked) ∧
    ((∃ rep, (execute_dag steps sk ex name fuel).1 = ExecOutcome.ok rep) ↔
      ∀ r ∈ (outcomeReport (execute_dag steps sk ex name fuel).1).steps,
        r.status = StepStatus.ok ∨ r.status = StepStatus.skipped) ∧
    ((run_real steps sk ex name fuel).exitCode = 0 ↔
      ∀ r ∈ (outcomeReport (execute_dag steps sk ex name fuel).1).steps,
        r.status = StepStatus.ok ∨ r.status = StepStatus.skipped) := by
  have hkey : ∀ r : StepReport,
      (¬(r.status = StepStatus.failed ∨ r.status = StepStatus.blocked)) ↔
      (r.status = StepStatus.ok ∨ r.status = StepStatus.skipped) := by
    intro r
    cases r.status <;> simp
  rw [execute_dag_outcome_eq]
  by_cases hcond : (countStatus (collect_reports steps (add_pending_reports steps
        (exec_loop steps sk ex fuel none EngineState.start))) StepStatus.failed > 0 ∨
      countStatus (collect_reports steps (add_pending_reports steps
        (exec_loop steps sk ex fuel none EngineState.start))) StepStatus.blocked > 0)
  · have hb : (decide (countStatus (collect_reports steps (add_pending_reports steps
          (exec_loop steps sk ex fuel none EngineState.start))) StepStatus.failed > 0) ||
        decide (countStatus (collect_reports steps (add_pending_reports steps
          (exec_loop steps sk ex fuel none EngineState.start))) StepStatus.blocked > 0)) = true := by
      rcases hcond with h | h <;> simp [h]
    rw [if_pos hb]
    have hex : ∃ r ∈ (collect_reports steps (add_pending_reports steps
        (exec_loop steps sk ex fuel none EngineState.start))),
        r.status = StepStatus.failed ∨ r.status = StepStatus.blocked := by
      rcases hcond with h | h
      · obtain ⟨r, hr, hst⟩ := (countStatus_pos_iff _ _).mp h
        exact ⟨r, hr, Or.inl hst⟩
      · obtain ⟨r, hr, hst⟩ := (countStatus_pos_iff _ _).mp h
        exact ⟨r, hr, Or.inr hst⟩
    refine ⟨?_, ?_, ?_⟩
    · simp only [outcomeReport]
      exact ⟨fun _ => hex, fun _ => ⟨_, _, rfl⟩⟩
    · simp only [outcomeReport]
      constructor
      · rintro ⟨rep, hrep⟩
        exact absurd hrep (by simp)
      · intro hall
        obtain ⟨r, hr, hst⟩ := hex
        rcases (hkey r).mpr (hall r hr) with h2
        exact absurd hst h2
    · rw [run_real, execute_dag_outcome_eq, if_pos hb]
      simp only [outcomeReport]
      constructor
      · intro h
        simp at h
      · intro hall
        obtain ⟨r, hr, hst⟩ := hex
        exact absurd hst ((hkey r).mpr (hall r hr))
  · have hb : (decide (countStatus (collect_reports steps (add_pending_reports steps
          (exec_loop steps sk ex fuel none EngineState.start))) StepStatus.failed > 0) ||
        decide (countStatus (collect_reports steps (add_pending_reports steps
          (exec_loop steps sk ex fuel none EngineState.start))) StepStatus.blocked > 0)) = false := by
      push_neg at hcond
      simp only [Bool.or_eq_false_iff, decide_eq_false_iff_not]
      omega
    rw [if_neg (by simp [hb])]
    have hnone : ∀ r ∈ (collect_reports steps (add_pending_reports steps
        (exec_loop steps sk ex fuel none EngineState.start))),
        r.status = StepStatus.ok ∨ r.status = StepStatus.skipped := by
      intro r hr
      apply (hkey r).mp
      push_neg at hcond
      rintro (hst | hst)
      · exact absurd ((countStatus_pos_iff _ _).mpr ⟨r, hr, hst⟩) (by omega)
      · exact absurd ((countStatus_pos_iff _ _).mpr ⟨r, hr, hst⟩) (by omega)
    refine ⟨?_, ?_, ?_⟩
    · simp only [outcomeReport]
      constructor
      · rintro ⟨msg, rep, hrep⟩
        exact absurd hrep (by simp)
      · rintro ⟨r, hr, hst⟩
        exact absurd hst ((hkey r).mpr (hnone r hr))
    · simp only [outcomeReport]
      exact ⟨fun _ => hnone, fun _ => ⟨_, rfl⟩⟩
    · rw [run_real, execute_dag_outcome_eq, if_neg (by simp [hb])]
      simp only [outcomeReport]
      exact ⟨fun _ => hnone, fun _ => by trivial⟩

/-- Witness for the C5 theorem: a concrete failing run is classified failed. -/
theorem execute_dag_failure_classification_witness :
    ∃ r ∈ (outcomeReport (execute_dag [exStepA] (fun _ => false)
        (fun _ => Except.error "boom") "wf" 2).1).steps,
      r.status = StepStatus.failed ∨ r.status = StepStatus.blocked :=
  (execute_dag_failure_classification [exStepA] (fun _ => false)
    (fun _ => Except.error "boom") "wf" 2).1.mp
    ⟨"Workflow completed with failures", _, rfl⟩

/-- C6, counterexample to the claim as stated: on a run whose only step
fails, `run_real` propagates the engine's error with `?` before reaching
`write_manifest`, so `run.json` is never written. -/
theorem run_real_manifest_cex :
    (execute_dag [exStepA] (fun _ => false) (fun _ => Except.error "boom") "wf" 2).1 =
      ExecOutcome.failedRun "Workflow completed with failures"
        ⟨"wf", [⟨"a", "test", StepStatus.failed, some "boom"⟩]⟩ ∧
    run_real [exStepA] (fun _ => false) (fun _ => Except.error "boom") "wf" 2 =
      ⟨1, false, none⟩ :=
  ⟨rfl, rfl⟩

/-- C6, amended: the run report is persisted to `run.json` only when the run
succeeds; on a run with a `Failed` or `Blocked` step, `execute_dag` returns
an error (carrying the serialized report in its context) which `run_real`
propagates before `write_manifest`, and `run.json` is not written. -/
theorem run_real_manifest (steps : List StepC) (sk : String → Bool)
    (ex : String → Except String Unit) (name : String) (fuel : Nat) :
    ((run_real steps sk ex name fuel).manifestWritten = true ↔
      ∃ rep, (execute_dag steps sk ex name fuel).1 = ExecOutcome.ok rep) ∧
    (∀ rep, (execute_dag steps sk ex name fuel).1 = ExecOutcome.ok rep →
      run_real steps sk ex name fuel = ⟨0, true, some rep⟩) ∧
    (∀ msg rep, (execute_dag steps sk ex name fuel).1 = ExecOutcome.failedRun msg rep →
      run_real steps sk ex name fuel = ⟨1, false, none⟩) := by
  refine ⟨?_, ?_, ?_⟩
  · cases hout : (execute_dag steps sk ex name fuel).1 with
    | ok rep => simp [run_real, hout]
    | failedRun msg rep => simp [run_real, hout]
  · intro rep hrep
    simp [run_real, hrep]
  · intro msg rep hrep
    simp [run_real, hrep]

/-- Witness for the amended C6 theorem: a successful run writes the
manifest. -/
theorem run_real_manifest_witness :
    run_real [exStepA] (fun _ => false) (fun _ => Except.ok ()) "wf" 2 =
      ⟨0, true, some ⟨"wf", [⟨"a", "test", StepStatus.ok, none⟩]⟩⟩ :=
  (run_real_manifest [exStepA] (fun _ => false) (fun _ => Except.ok ()) "wf" 2).2.1
    ⟨"wf", [⟨"a", "test", StepStatus.ok, none⟩]⟩ rfl


/-! ## Lemmas about the state store -/

theorem fsGet_fsSet (fs : List (String × String)) (k v : String) :
    fsGet (fsSet fs k v) k = some v := by
  rw [fsSet, fsGet, List.lookup_cons]
  simp

/-- C7, counterexample to the claim as stated: `StateStore::save` performs a
direct `fs::write` to `state.json` — no temporary file is written and no
rename happens — and under the prefix-crash model an interruption can leave
`state.json` holding `"NE"`, a strict prefix that is neither the old state
`"OLD"` nor the new state `"NEW"`. -/
theorem state_store_save_cex :
    state_store_save_ops (state_store_path "wd") "NEW" =
      [FsOp.createDirAll "wd", FsOp.writeFile "wd/state.json" "NEW"] ∧
    (¬ ∃ tmp, tmp ≠ state_store_path "wd" ∧
      FsOp.writeFile tmp "NEW" ∈ state_store_save_ops (state_store_path "wd") "NEW" ∧
      FsOp.renameFile tmp (state_store_path "wd") ∈
        state_store_save_ops (state_store_path "wd") "NEW") ∧
    some "NE" ∈ (crashStates [("wd/state.json", "OLD")]
        (state_store_save_ops (state_store_path "wd") "NEW")).map
        (fun fs => fsGet fs "wd/state.json") ∧
    "NE" ≠ "OLD" ∧ "NE" ≠ "NEW" := by
  refine ⟨rfl, ?_, by decide, by decide, by decide⟩
  rintro ⟨tmp, _, _, hr⟩
  simp [state_store_save_ops] at hr

/-- C7, amended: `save` serializes the state and writes it directly to
`state.json` (after `create_dir_all` on the parent); it performs no
write-to-temp and no rename, a completed save leaves exactly the serialized
state in the file, and an interrupted save can leave any prefix of the new
content. -/
theorem state_store_save_spec (workdir serialized : String)
    (fs0 : List (String × String)) :
    state_store_save_ops (state_store_path workdir) serialized =
      [FsOp.createDirAll (parentDir (state_store_path workdir)),
       FsOp.writeFile (state_store_path workdir) serialized] ∧
    (∀ op ∈ state_store_save_ops (state_store_path workdir) serialized,
      op.isRename = false) ∧
    fsGet ((state_store_save_ops (state_store_path workdir) serialized).foldl
        applyFsOp fs0) (state_store_path workdir) = some serialized ∧
    (∀ n, n ≤ serialized.data.length →
      some (String.mk (serialized.data.take n)) ∈
        (crashStates fs0 (state_store_save_ops (state_store_path workdir) serialized)).map
          (fun fs => fsGet fs (state_store_path workdir))) := by
  refine ⟨rfl, ?_, ?_, ?_⟩
  · intro op hop
    rw [state_store_save_ops] at hop
    rcases List.mem_cons.mp hop with rfl | hop2
    · rfl
    · rcases List.mem_cons.mp hop2 with rfl | hop3
      · rfl
      · simp at hop3
  · rw [state_store_save_ops]
    simp only [List.foldl_cons, List.foldl_nil, applyFsOp]
    exact fsGet_fsSet fs0 _ serialized
  · intro n hn
    refine List.mem_map.mpr
      ⟨fsSet fs0 (state_store_path workdir) (String.mk (serialized.data.take n)), ?_,
        fsGet_fsSet fs0 _ _⟩
    rw [state_store_save_ops, crashStates]
    refine List.mem_cons.mpr (Or.inr ?_)
    have hmid : midFsStates fs0 (FsOp.createDirAll (parentDir (state_store_path workdir))) =
        [] := rfl
    have happ : applyFsOp fs0 (FsOp.createDirAll (parentDir (state_store_path workdir))) =
        fs0 := rfl
    rw [hmid, happ]
    rw [show ([] : List (List (String × String))).append
      (crashStates fs0 [FsOp.writeFile (state_store_path workdir) serialized]) =
      crashStates fs0 [FsOp.writeFile (state_store_path workdir) serialized] from rfl]
    rw [crashStates]
    refine List.mem_cons.mpr (Or.inr ?_)
    refine List.mem_append.mpr (Or.inl ?_)
    rw [midFsStates]
    exact List.mem_map.mpr ⟨n, List.mem_range.mpr (by omega), rfl⟩

/-- Witness for the amended C7 theorem at a concrete input: the interrupted
save of `"NEW"` over `"OLD"` can leave the two-character prefix. -/
theorem state_store_save_witness :
    some (String.mk ("NEW".data.take 2)) ∈
      (crashStates [("wd/state.json", "OLD")]
        (state_store_save_ops (state_store_path "wd") "NEW")).map
        (fun fs => fsGet fs (state_store_path "wd")) :=
  (state_store_save_spec "wd" "NEW" [("wd/state.json", "OLD")]).2.2.2 2 (by decide)

end VWF
